import Mathlib

/-!
Verification of the hope-green-path-server repository.

This file gives a shallow embedding in Lean 4 of the parts of the source
that the verified properties are about: the per-path noise attributes
(src/app/path_noises.py), the edge noise-cost policy, nearest-edge search,
dynamic splicing, least-cost-path guard and cleanup of the graph store
(src/app/graph_handler.py), the quietpaths HTTP route
(src/green_paths_app.py), the graph serializer (src/utils/igraphs.py) and
the regression harness (src/test_quiet_paths_app.py).

Python floats are modelled as exact rationals, and Python round(x, n) as
exact decimal rounding with half-to-even tie breaking.  Functions of
utility modules that the reviewed source calls but that are not part of it
(utils/noise_exposures.py, utils/geometry.py, the igraph library) are
modelled from the specification and marked as such in their doc comments.
-/

namespace GreenPaths

/-- Round a rational to an integer with half-to-even tie breaking, as
Python round does. -/
def roundHalfEven (q : ℚ) : ℤ :=
  let f := ⌊q⌋
  let frac := q - f
  if frac < 1/2 then f
  else if 1/2 < frac then f + 1
  else if f % 2 = 0 then f else f + 1

/-- Python round(x, nd) on exact decimals. -/
def roundPy (q : ℚ) (nd : ℕ) : ℚ :=
  (roundHalfEven (q * 10 ^ nd) : ℚ) / 10 ^ nd

theorem roundHalfEven_intCast (n : ℤ) : roundHalfEven (n : ℚ) = n := by
  unfold roundHalfEven
  rw [Int.floor_intCast]
  norm_num

theorem roundPy_intCast (n : ℤ) (nd : ℕ) : roundPy (n : ℚ) nd = (n * 10 ^ nd : ℤ) / ((10 : ℚ) ^ nd) := by
  unfold roundPy
  have : (n : ℚ) * 10 ^ nd = ((n * 10 ^ nd : ℤ) : ℚ) := by push_cast; ring
  rw [this, roundHalfEven_intCast]

theorem roundPy_intCast_eq (n : ℤ) (nd : ℕ) : roundPy (n : ℚ) nd = n := by
  rw [roundPy_intCast]
  push_cast
  have h10 : ((10 : ℚ) ^ nd) ≠ 0 := by positivity
  field_simp

/-! ## Noise maps and the noise exposure model -/

/-- A noise map: association list from a noise band (dB lower bound) to the
exposed length in meters.  Models the Python dict attribute; the empty list
models both the empty dict and the falsy absent value. -/
abbrev NoiseMap := List (ℕ × ℚ)

/-- Dict assignment m[k] = v on an association list: overwrite an existing
key in place, else append. -/
def setBand (m : NoiseMap) (k : ℕ) (v : ℚ) : NoiseMap :=
  if m.any (fun p => p.1 == k) then
    m.map (fun p => if p.1 == k then (k, v) else p)
  else m ++ [(k, v)]

/-- Dict lookup with default 0 for an association list keyed by band. -/
def lookupBand (m : List (ℕ × ℚ)) (k : ℕ) : ℚ :=
  match m.find? (fun p => p.1 == k) with
  | some p => p.2
  | none => 0

/-- Modelled from the spec: utils/noise_exposures.aggregate_exposures is
not under src.  Per the spec it is the element-wise sum of band to length
over a list of noise maps, absent (empty) maps contributing nothing. -/
def aggregate_exposures (maps : List NoiseMap) : NoiseMap :=
  maps.foldl (fun acc m => m.foldl (fun a kv => setBand a kv.1 (lookupBand a kv.1 + kv.2)) acc) []

/-- Modelled from the spec: utils/noise_exposures.get_noise_cost is not
under src.  Cost is the sum over each (band, band_length) in the noise map
of band_length times the cost coefficient of that band under the given
sensitivity; db_costs is the version-3 coefficient table, also not under
src, modelled as an abstract two-level function. -/
def get_noise_cost (noises : NoiseMap) (db_costs : ℚ → ℕ → ℚ) (sen : ℚ) : ℚ :=
  (noises.map (fun p => p.2 * db_costs sen p.1)).sum

/-- Modelled from the spec: the call get_noise_cost(noises, db_costs) with
the sensitivity omitted computes at sensitivity 1 (the Noise Exposure
Index).  At the path_noises.py call sites db_costs is the flat per-band
table whose values max(db_costs.values()) ranges over, so it is modelled
here as an association list from band to coefficient. -/
def get_noise_cost_sen1 (noises : NoiseMap) (db_costs : List (ℕ × ℚ)) : ℚ :=
  (noises.map (fun p => p.2 * lookupBand db_costs p.1)).sum

/-- Python max(db_costs.values()); max on a non-empty list of values
(Python raises on an empty dict, never hit: the table is built once at
startup and is non-empty). -/
def maxDbCost (db_costs : List (ℕ × ℚ)) : ℚ :=
  match db_costs.map Prod.snd with
  | [] => 0
  | v :: vs => vs.foldl max v

/-- Modelled from the spec: utils/noise_exposures.get_mean_noise_level is
the length-weighted mean dB across the band map. -/
def get_mean_noise_level (noises : NoiseMap) (length : ℚ) : ℚ :=
  (noises.map (fun p => (p.1 : ℚ) * p.2)).sum / length

/-- Modelled from the spec: utils/noise_exposures.get_noise_range maps a
mean dB value to a coarse labeled range bucket. -/
def get_noise_range (mdb : ℚ) : String :=
  if mdb < 55 then "<55"
  else if mdb < 60 then "55-60"
  else if mdb < 65 then "60-65"
  else if mdb < 70 then "65-70"
  else "70<"

/-- Dict assignment for string-keyed association lists (used by the range
bucketing below). -/
def setRange (m : List (String × ℚ)) (k : String) (v : ℚ) : List (String × ℚ) :=
  if m.any (fun p => p.1 == k) then
    m.map (fun p => if p.1 == k then (k, v) else p)
  else m ++ [(k, v)]

/-- Lookup with default 0 for string-keyed association lists. -/
def lookupRange (m : List (String × ℚ)) (k : String) : ℚ :=
  match m.find? (fun p => p.1 == k) with
  | some p => p.2
  | none => 0

/-- Modelled from the spec: utils/noise_exposures.get_noise_range_exps
buckets the band map into the coarse ranges. -/
def get_noise_range_exps (noises : NoiseMap) (_length : ℚ) : List (String × ℚ) :=
  noises.foldl (fun acc p =>
    let key := get_noise_range (p.1 : ℚ)
    setRange acc key (lookupRange acc key + p.2)) []

/-- Modelled from the spec: utils/noise_exposures.get_noise_range_pcts
converts the bucketed exposures to shares of the total path length. -/
def get_noise_range_pcts (range_exps : List (String × ℚ)) (length : ℚ) : List (String × ℚ) :=
  range_exps.map (fun p => (p.1, p.2 * 100 / length))

/-! ## PathNoiseAttrs (src/app/path_noises.py) -/

/-- The PathNoiseAttrs record (path_noises.py lines 8-18).  All derived
fields start as Python None, modelled as Option none. -/
structure PathNoiseAttrs where
  noises : NoiseMap
  mdB : Option ℚ
  nei : Option ℚ
  nei_norm : Option ℚ
  noise_range_exps : Option (List (String × ℚ))
  noise_pcts : Option (List (String × ℚ))
  mdB_diff : Option ℚ
  nei_diff : Option ℚ
  nei_diff_rat : Option ℚ
  nei_diff_score : Option ℚ

/-- The PathNoiseAttrs constructor (path_noises.py lines 8-18): aggregate
the per-edge noise maps, leave every derived field None. -/
def PathNoiseAttrs.init (noises_list : List NoiseMap) : PathNoiseAttrs :=
  { noises := aggregate_exposures noises_list
    mdB := none, nei := none, nei_norm := none
    noise_range_exps := none, noise_pcts := none
    mdB_diff := none, nei_diff := none, nei_diff_rat := none, nei_diff_score := none }

/-- path_noises.py lines 20-27 (set_noise_attrs): all derived noise fields
are computed only when the combined noise map is truthy (non-empty). -/
def PathNoiseAttrs.set_noise_attrs (p : PathNoiseAttrs) (db_costs : List (ℕ × ℚ)) (length : ℚ) :
    PathNoiseAttrs :=
  if p.noises ≠ [] then
    let mdB := get_mean_noise_level p.noises length
    let nei := roundPy (get_noise_cost_sen1 p.noises db_costs) 1
    let max_db_cost := maxDbCost db_costs
    let nei_norm := roundPy (nei / (max_db_cost * length)) 4
    let nre := get_noise_range_exps p.noises length
    { p with mdB := some mdB, nei := some nei, nei_norm := some nei_norm,
             noise_range_exps := some nre,
             noise_pcts := some (get_noise_range_pcts nre length) }
  else p

/-- path_noises.py lines 29-33 (set_noise_diff_attrs).  The subtractions on
mdB and nei raise a TypeError when a field is Python None, so the result is
an Except; on numeric fields the computation mirrors the source line by
line, including that nei_diff_rat and nei_diff_score divide the already
rounded nei_diff. -/
def PathNoiseAttrs.set_noise_diff_attrs (p s : PathNoiseAttrs) (len_diff : ℚ) :
    Except String PathNoiseAttrs :=
  match p.mdB, s.mdB, p.nei, s.nei with
  | some pm, some sm, some pn, some sn =>
    let mdB_diff := roundPy (pm - sm) 1
    let nei_diff := roundPy (pn - sn) 1
    let nei_diff_rat := if sn > 0 then roundPy (nei_diff / sn * 100) 1 else 0
    let nei_diff_score := if len_diff > 0 then roundPy (nei_diff / len_diff * (-1)) 1 else 0
    Except.ok { p with mdB_diff := some mdB_diff, nei_diff := some nei_diff,
                       nei_diff_rat := some nei_diff_rat,
                       nei_diff_score := some nei_diff_score }
  | _, _, _, _ => Except.error "TypeError: unsupported operand types for subtraction"

/-- The flat record rendered by get_noise_props_dict. -/
structure NoiseProps where
  noises : NoiseMap
  mdB : Option ℚ
  nei : Option ℚ
  nei_norm : ℚ
  noise_range_exps : Option (List (String × ℚ))
  noise_pcts : Option (List (String × ℚ))
  mdB_diff : Option ℚ
  nei_diff : Option ℚ
  nei_diff_rat : Option ℚ
  path_score : Option ℚ

/-- path_noises.py lines 35-47 (get_noise_props_dict): every field is
passed through unchanged except nei_norm, which is unconditionally
re-rounded to 2 decimals; round(None, 2) raises a TypeError, hence the
Except. -/
def PathNoiseAttrs.get_noise_props_dict (p : PathNoiseAttrs) : Except String NoiseProps :=
  match p.nei_norm with
  | none => Except.error "TypeError: type NoneType does not define round"
  | some v => Except.ok
      { noises := p.noises, mdB := p.mdB, nei := p.nei,
        nei_norm := roundPy v 2,
        noise_range_exps := p.noise_range_exps, noise_pcts := p.noise_pcts,
        mdB_diff := p.mdB_diff, nei_diff := p.nei_diff,
        nei_diff_rat := p.nei_diff_rat, path_score := p.nei_diff_score }

/-! ## The two normalized-NEI pipelines (claim C9) -/

/-- test_quiet_paths_app.py line 61: the regression harness normalized NEI,
with the hardcoded divisor coefficient 0.6. -/
def nei_norm_legacy (nei total_length : ℚ) : ℚ :=
  roundPy (nei / (0.6 * total_length)) 4

/-- path_noises.py lines 24-25: the production normalized NEI, dividing by
max(db_costs.values()) times the path length. -/
def nei_norm_model (db_costs : List (ℕ × ℚ)) (nei length : ℚ) : ℚ :=
  roundPy (nei / (maxDbCost db_costs * length)) 4

/-- C7: for every pair of numeric path noise attribute records and every
length difference, set_noise_diff_attrs sets nei_diff_rat to 0 whenever the
baseline NEI is 0 and otherwise to (nei_diff / baseline NEI) times 100
rounded to 1 decimal, and sets nei_diff_score to 0 whenever the length
difference is non-positive and otherwise to the negated ratio of nei_diff
to the length difference, rounded to 1 decimal.  Baseline NEI values are
non-negative by construction (a rounded sum of non-negative exposures). -/
theorem nei_diff_scoring (p s : PathNoiseAttrs) (pm sm pn sn len_diff : ℚ)
    (hpm : p.mdB = some pm) (hsm : s.mdB = some sm)
    (hpn : p.nei = some pn) (hsn : s.nei = some sn) (hsn0 : 0 ≤ sn) :
    ∃ r, p.set_noise_diff_attrs s len_diff = Except.ok r ∧
      r.nei_diff = some (roundPy (pn - sn) 1) ∧
      (sn = 0 → r.nei_diff_rat = some 0) ∧
      (sn ≠ 0 → r.nei_diff_rat = some (roundPy (roundPy (pn - sn) 1 / sn * 100) 1)) ∧
      (len_diff ≤ 0 → r.nei_diff_score = some 0) ∧
      (0 < len_diff → r.nei_diff_score = some (roundPy (-(roundPy (pn - sn) 1 / len_diff)) 1)) := by
  unfold PathNoiseAttrs.set_noise_diff_attrs
  rw [hpm, hsm, hpn, hsn]
  refine ⟨_, rfl, rfl, ?_, ?_, ?_, ?_⟩
  · intro h0
    simp only [h0, gt_iff_lt, lt_irrefl, if_false]
  · intro hne
    have hlt : 0 < sn := lt_of_le_of_ne hsn0 (Ne.symm hne)
    simp only [gt_iff_lt, hlt, if_true]
  · intro hle
    simp only [gt_iff_lt, not_lt.mpr hle, if_false]
  · intro hlt
    simp only [gt_iff_lt, hlt, if_true, mul_neg_one, neg_div]

/-- Witness for nei_diff_scoring at a concrete pair of records. -/
theorem nei_diff_scoring_witness :
    ∃ r, PathNoiseAttrs.set_noise_diff_attrs
        ⟨[], some 60, some 12, none, none, none, none, none, none, none⟩
        ⟨[], some 50, some 10, none, none, none, none, none, none, none⟩ 2
        = Except.ok r ∧
      r.nei_diff = some (roundPy ((12 : ℚ) - 10) 1) ∧
      ((10 : ℚ) = 0 → r.nei_diff_rat = some 0) ∧
      ((10 : ℚ) ≠ 0 → r.nei_diff_rat = some (roundPy (roundPy ((12 : ℚ) - 10) 1 / 10 * 100) 1)) ∧
      ((2 : ℚ) ≤ 0 → r.nei_diff_score = some 0) ∧
      ((0 : ℚ) < 2 → r.nei_diff_score = some (roundPy (-(roundPy ((12 : ℚ) - 10) 1 / 2)) 1)) :=
  nei_diff_scoring _ _ 60 50 12 10 2 rfl rfl rfl rfl (by norm_num)

/-- C10: for every path whose combined noise map is empty, set_noise_attrs
leaves every derived noise attribute absent, and get_noise_props_dict then
fails with a TypeError (it unconditionally rounds the absent nei_norm)
instead of returning a record with absent fields. -/
theorem empty_noises_props_fail (noises_list : List NoiseMap)
    (db_costs : List (ℕ × ℚ)) (length : ℚ)
    (h : aggregate_exposures noises_list = []) :
    ((PathNoiseAttrs.init noises_list).set_noise_attrs db_costs length).mdB = none ∧
    ((PathNoiseAttrs.init noises_list).set_noise_attrs db_costs length).nei = none ∧
    ((PathNoiseAttrs.init noises_list).set_noise_attrs db_costs length).nei_norm = none ∧
    ((PathNoiseAttrs.init noises_list).set_noise_attrs db_costs length).noise_range_exps = none ∧
    ((PathNoiseAttrs.init noises_list).set_noise_attrs db_costs length).noise_pcts = none ∧
    ((PathNoiseAttrs.init noises_list).set_noise_attrs db_costs length).get_noise_props_dict
      = Except.error "TypeError: type NoneType does not define round" := by
  have hset : (PathNoiseAttrs.init noises_list).set_noise_attrs db_costs length
      = PathNoiseAttrs.init noises_list := by
    unfold PathNoiseAttrs.set_noise_attrs
    simp [PathNoiseAttrs.init, h]
  rw [hset]
  refine ⟨rfl, rfl, rfl, rfl, rfl, ?_⟩
  simp [PathNoiseAttrs.init, PathNoiseAttrs.get_noise_props_dict]

/-- Witness for empty_noises_props_fail: a path of one edge that has no
noise data. -/
theorem empty_noises_props_fail_witness :
    ((PathNoiseAttrs.init [[]]).set_noise_attrs [] 1).mdB = none ∧
    ((PathNoiseAttrs.init [[]]).set_noise_attrs [] 1).nei = none ∧
    ((PathNoiseAttrs.init [[]]).set_noise_attrs [] 1).nei_norm = none ∧
    ((PathNoiseAttrs.init [[]]).set_noise_attrs [] 1).noise_range_exps = none ∧
    ((PathNoiseAttrs.init [[]]).set_noise_attrs [] 1).noise_pcts = none ∧
    ((PathNoiseAttrs.init [[]]).set_noise_attrs [] 1).get_noise_props_dict
      = Except.error "TypeError: type NoneType does not define round" :=
  empty_noises_props_fail [[]] [] 1 rfl

/-- C9: the harness normalization (hardcoded 0.6 divisor) and the
production normalization (max db-cost divisor) agree on all inputs exactly
when the maximum db-cost coefficient is 0.6. -/
theorem nei_norm_divergence (db_costs : List (ℕ × ℚ)) (hpos : 0 < maxDbCost db_costs) :
    (∀ nei len, nei_norm_legacy nei len = nei_norm_model db_costs nei len) ↔
      maxDbCost db_costs = 0.6 := by
  set c := maxDbCost db_costs with hc
  have h06 : (0.6 : ℚ) = 3/5 := by norm_num
  have h06ne : (0.6 : ℚ) ≠ 0 := by norm_num
  constructor
  · intro hall
    have hcne : c ≠ 0 := ne_of_gt hpos
    have hden : ((c.den : ℚ)) ≠ 0 := by
      have := c.den_nz
      exact_mod_cast Nat.cast_ne_zero.mpr this
    have hnum : (c.num : ℚ) = c * c.den := (div_eq_iff hden).mp (Rat.num_div_den c)
    have h1 := hall (0.6 * c * (5 * (c.den : ℚ))) 1
    rw [nei_norm_legacy, nei_norm_model, ← hc] at h1
    have e1 : (0.6 * c * (5 * (c.den : ℚ))) / ((0.6 : ℚ) * 1) = ((5 * c.num : ℤ) : ℚ) := by
      have hr : ((5 * c.num : ℤ) : ℚ) = 5 * (c * (c.den : ℚ)) := by
        push_cast
        rw [hnum]
      rw [hr, mul_one]
      rw [show (0.6 : ℚ) * c * (5 * (c.den : ℚ)) = 0.6 * (5 * (c * (c.den : ℚ))) from by ring]
      rw [mul_div_cancel_left₀ _ h06ne]
    have e2 : (0.6 * c * (5 * (c.den : ℚ))) / (c * 1) = ((3 * c.den : ℤ) : ℚ) := by
      have hr : ((3 * c.den : ℤ) : ℚ) = 3 * (c.den : ℚ) := by
        push_cast
        ring
      rw [hr, mul_one]
      rw [show (0.6 : ℚ) * c * (5 * (c.den : ℚ)) = c * (3 * (c.den : ℚ)) from by
        rw [h06]; ring]
      rw [mul_div_cancel_left₀ _ hcne]
    rw [e1, e2, roundPy_intCast_eq, roundPy_intCast_eq] at h1
    have h2 : 5 * (c.num : ℚ) = 3 * (c.den : ℚ) := by exact_mod_cast h1
    rw [hnum] at h2
    have h3 : (5 * c) * (c.den : ℚ) = 3 * (c.den : ℚ) := by linarith [h2]
    have h4 : 5 * c = 3 := mul_right_cancel₀ hden h3
    rw [h06]
    linarith
  · intro h nei len
    rw [nei_norm_legacy, nei_norm_model, ← hc, h]

/-- Witness for nei_norm_divergence at a concrete one-entry cost table. -/
theorem nei_norm_divergence_witness :
    (0 : ℚ) < maxDbCost [(40, 3/5)] ∧
      ((∀ nei len, nei_norm_legacy nei len = nei_norm_model [(40, 3/5)] nei len) ↔
        maxDbCost [(40, 3/5)] = 0.6) :=
  ⟨by norm_num [maxDbCost], nei_norm_divergence [(40, 3/5)] (by norm_num [maxDbCost])⟩

/-! ## Edge noise-cost policy (graph_handler.py lines 70-96) -/

/-- The attributes of one edge that the noise-cost policy reads: the noises
dict, the geometry attribute (some when it is a LineString, none otherwise;
the point content is irrelevant to the policy), and the length. -/
structure NoiseCostEdge where
  noises : NoiseMap
  geometry : Option (List (ℚ × ℚ))
  length : ℚ
deriving DecidableEq

/-- Modelled from the spec: utils/noise_exposures.estimate_db_40_exp is not
under src; it estimates the portion of the length exposed to the 40 dB band
as the length minus the sum of lengths already attributed in the map, and 0
if that sum already covers the full length. -/
def estimate_db_40_exp (noises : NoiseMap) (length : ℚ) : ℚ :=
  let covered := (noises.map Prod.snd).sum
  if length - covered > 0 then length - covered else 0

/-- graph_handler.py lines 75-82: for an edge with a truthy noise map, a
positive 40 dB estimate is folded into the map under key 40 before costs
are computed; other edges keep their map unchanged. -/
def folded_noises (e : NoiseCostEdge) : NoiseMap :=
  if e.noises ≠ [] then
    let db_40_exp := estimate_db_40_exp e.noises e.length
    if db_40_exp > 0 then setBand e.noises 40 db_40_exp else e.noises
  else e.noises

/-- graph_handler.py lines 85-95, branch order as in the source: an edge
with a falsy (empty) noise map and a LineString geometry gets noise cost
length * 20; otherwise an edge without a LineString geometry gets 0;
otherwise the weighted-band formula on the folded map. -/
def edge_noise_cost (db_costs : ℚ → ℕ → ℚ) (sen : ℚ) (e : NoiseCostEdge) : ℚ :=
  let noises := folded_noises e
  if noises = [] ∧ e.geometry.isSome then e.length * 20
  else if ¬ e.geometry.isSome then 0
  else get_noise_cost noises db_costs sen

/-- graph_handler.py line 96: the stored per-sensitivity weight
nc_<sensitivity>. -/
def edge_nc (db_costs : ℚ → ℕ → ℚ) (sen : ℚ) (e : NoiseCostEdge) : ℚ :=
  roundPy (e.length + edge_noise_cost db_costs sen e) 2

/-- Case (a) of claim C2 exactly as stated: a non-empty noise map. -/
abbrev noiseCaseA (e : NoiseCostEdge) : Prop := e.noises ≠ []

/-- Case (b) of claim C2: empty or absent noise map and valid geometry. -/
abbrev noiseCaseB (e : NoiseCostEdge) : Prop := e.noises = [] ∧ e.geometry.isSome

/-- Case (c) of claim C2: no valid line geometry. -/
abbrev noiseCaseC (e : NoiseCostEdge) : Prop := ¬ e.geometry.isSome

theorem setBand_ne_nil (m : NoiseMap) (k : ℕ) (v : ℚ) : setBand m k v ≠ [] := by
  unfold setBand
  split
  · next h =>
    cases m with
    | nil => simp at h
    | cons a as => simp
  · simp

theorem folded_noises_nil_iff (e : NoiseCostEdge) : folded_noises e = [] ↔ e.noises = [] := by
  unfold folded_noises
  by_cases h : e.noises = []
  · simp [h]
  · simp only [h, ne_eq, not_false_eq_true, if_true]
    constructor
    · intro hs
      split at hs
      · exact absurd hs (setBand_ne_nil _ _ _)
      · exact absurd hs h
    · intro hs
      exact hs.elim

/-- The edge refuting the exactness of the three-case partition of claim
C2: a non-empty noise map together with a missing geometry. -/
def cexNoiseEdge : NoiseCostEdge := ⟨[(45, 10)], none, 5⟩

/-- A concrete db-cost table for the partition counterexample. -/
def cexDbCosts : ℚ → ℕ → ℚ := fun _ _ => 1

/-- C2 counterexample: for the edge with 10 m of band-45 noise, no geometry
and length 5, cases (a) and (c) of the claim hold simultaneously, so the
partition in the claim is not exact; the code computes the case (c) value 0
for it, not the case (a) weighted-band value 10, and stores nc = 5. -/
theorem penalty_partition_cex :
    (noiseCaseA cexNoiseEdge ∧ noiseCaseC cexNoiseEdge) ∧
    edge_noise_cost cexDbCosts 1 cexNoiseEdge = 0 ∧
    get_noise_cost (folded_noises cexNoiseEdge) cexDbCosts 1 = 10 ∧
    edge_nc cexDbCosts 1 cexNoiseEdge = 5 := by
  have hfold : folded_noises cexNoiseEdge = [(45, 10)] := by
    unfold folded_noises cexNoiseEdge estimate_db_40_exp
    norm_num
  have hcost : edge_noise_cost cexDbCosts 1 cexNoiseEdge = 0 := by
    unfold edge_noise_cost
    rw [hfold]
    norm_num [cexNoiseEdge]
  refine ⟨⟨by simp [cexNoiseEdge], by simp [cexNoiseEdge]⟩, hcost, ?_, ?_⟩
  · rw [hfold]
    norm_num [get_noise_cost, cexDbCosts]
  · unfold edge_nc
    rw [hcost]
    have h1 : cexNoiseEdge.length + 0 = ((5 : ℤ) : ℚ) := by
      norm_num [cexNoiseEdge]
    rw [h1, roundPy_intCast_eq]
    norm_num

/-- C2 amended: with case (a) restricted to edges that also have a valid
line geometry, the three cases are an exact partition; in each case the
computed noise cost is the value that case prescribes (the weighted-band
formula on the folded map, length * 20, or 0), and the stored weight is
always round(length + noise_cost, 2). -/
theorem penalty_partition (db_costs : ℚ → ℕ → ℚ) (sen : ℚ) (e : NoiseCostEdge) :
    (((noiseCaseA e ∧ ¬ noiseCaseC e) ∧ ¬ noiseCaseB e ∧ ¬ noiseCaseC e ∧
        edge_noise_cost db_costs sen e = get_noise_cost (folded_noises e) db_costs sen) ∨
     (noiseCaseB e ∧ ¬ (noiseCaseA e ∧ ¬ noiseCaseC e) ∧ ¬ noiseCaseC e ∧
        edge_noise_cost db_costs sen e = e.length * 20) ∨
     (noiseCaseC e ∧ ¬ (noiseCaseA e ∧ ¬ noiseCaseC e) ∧ ¬ noiseCaseB e ∧
        edge_noise_cost db_costs sen e = 0)) ∧
    edge_nc db_costs sen e = roundPy (e.length + edge_noise_cost db_costs sen e) 2 := by
  refine ⟨?_, rfl⟩
  by_cases hg : e.geometry.isSome
  · by_cases hn : e.noises = []
    · refine Or.inr (Or.inl ⟨⟨hn, hg⟩, ?_, ?_, ?_⟩)
      · rintro ⟨ha, _⟩
        exact ha hn
      · intro hc
        exact hc hg
      · unfold edge_noise_cost
        rw [if_pos ⟨(folded_noises_nil_iff e).mpr hn, hg⟩]
    · refine Or.inl ⟨⟨hn, fun hc => hc hg⟩, ?_, fun hc => hc hg, ?_⟩
      · rintro ⟨hbn, _⟩
        exact hn hbn
      · unfold edge_noise_cost
        rw [if_neg, if_neg]
        · intro hc
          exact hc hg
        · rintro ⟨hfn, _⟩
          exact hn ((folded_noises_nil_iff e).mp hfn)
  · refine Or.inr (Or.inr ⟨hg, ?_, ?_, ?_⟩)
    · rintro ⟨_, hnc⟩
      exact hnc hg
    · rintro ⟨_, hbs⟩
      exact hg hbs
    · unfold edge_noise_cost
      rw [if_neg, if_pos hg]
      rintro ⟨_, hs⟩
      exact hg hs

/-! ## Least-cost-path guard (graph_handler.py lines 287-304) -/

/-- The two kinds of routing errors the error taxonomy names. -/
inductive RoutingError where
  | invalidInput : String → RoutingError
  | notFound : String → RoutingError
deriving DecidableEq

/-- graph_handler.py lines 287-304 (get_least_cost_path).  The underlying
igraph search self.graph.get_shortest_paths is third-party code; modelled
from the spec: the search fails exactly when it cannot produce a path
(disconnected graph, missing nodes), an outcome the search argument
represents by none.  The guard, the branch order and the two raised message
strings are taken from the source. -/
def get_least_cost_path (search : ℕ → ℕ → String → Option (List ℕ))
    (orig_node dest_node : ℕ) (weight : String) : Except RoutingError (List ℕ) :=
  if orig_node ≠ dest_node then
    match search orig_node dest_node weight with
    | some p => Except.ok p
    | none => Except.error (RoutingError.notFound "Could not find paths")
  else
    Except.error (RoutingError.invalidInput "Origin and destination are the same location")

/-- A search that always fails; stands for the search over a graph where
origin and destination are not connected. -/
def searchNone : ℕ → ℕ → String → Option (List ℕ) := fun _ _ _ => none

/-- C3 counterexample: the claim quotes the error messages in lower case
("origin and destination are the same location"), but the source raises
them capitalized, so at origin = destination = 0 the raised error is not
the one the claim names. -/
theorem path_guard_cex :
    get_least_cost_path searchNone 0 0 "length"
      ≠ Except.error (RoutingError.invalidInput "origin and destination are the same location") ∧
    get_least_cost_path searchNone 0 0 "length"
      = Except.error (RoutingError.invalidInput "Origin and destination are the same location") := by
  constructor
  · intro hcontra
    have heq : get_least_cost_path searchNone 0 0 "length"
        = Except.error
            (RoutingError.invalidInput "Origin and destination are the same location") := rfl
    rw [heq] at hcontra
    injection hcontra with h1
    injection h1 with h2
    exact absurd h2 (by decide)
  · rfl

/-- C3 amended: with the capitalized message strings the source actually
raises, the characterization holds: the InvalidInput error is returned
exactly when origin equals destination; otherwise a failed search yields
the NotFound error and a successful search yields its path. -/
theorem path_guard (search : ℕ → ℕ → String → Option (List ℕ)) (n m : ℕ) (w : String) :
    (get_least_cost_path search n m w
        = Except.error (RoutingError.invalidInput "Origin and destination are the same location")
      ↔ n = m) ∧
    (n ≠ m → search n m w = none →
      get_least_cost_path search n m w
        = Except.error (RoutingError.notFound "Could not find paths")) ∧
    (n ≠ m → ∀ p, search n m w = some p →
      get_least_cost_path search n m w = Except.ok p) := by
  by_cases h : n = m
  · subst h
    simp [get_least_cost_path]
  · refine ⟨⟨?_, ?_⟩, ?_, ?_⟩
    · intro he
      exfalso
      unfold get_least_cost_path at he
      rw [if_pos h] at he
      cases hs : search n m w with
      | some p =>
        rw [hs] at he
        simp at he
      | none =>
        rw [hs] at he
        simp at he
    · intro hnm
      exact absurd hnm h
    · intro _ hs
      unfold get_least_cost_path
      rw [if_pos h, hs]
    · intro _ p hs
      unfold get_least_cost_path
      rw [if_pos h, hs]

/-- Witness for path_guard: distinct nodes with a failing search produce
the NotFound error. -/
theorem path_guard_witness :
    get_least_cost_path searchNone 0 1 "length"
      = Except.error (RoutingError.notFound "Could not find paths") :=
  (path_guard searchNone 0 1 "length").2.1 (by decide) rfl

/-! ## The quietpaths HTTP route (green_paths_app.py lines 48-70) -/

/-- The JSON response of the quietpaths route: either the two feature
collections or an error object carrying the raised message. -/
inductive QPResponse (φ : Type) where
  | featureCollections : φ → φ → QPResponse φ
  | errorObj : String → QPResponse φ

/-- green_paths_app.py lines 48-70: the route body runs the three
PathFinder steps in order inside a try block, catches any raised error as
the error response, and in the finally block runs
delete_added_graph_features before either response is returned.  The
PathFinder lives in a module that is not part of the reviewed source;
modelled from the spec: each step either succeeds, possibly mutating the
request state (the shared graph with this request's splices), or raises a
short user-presentable error string, leaving the state it reached (the
pair in the error).  The result is the final state paired with the
response; the nested matches are the Python control flow (a later step
runs only when every earlier one succeeded; the first raise wins). -/
def quietpaths_route {σ φ : Type} (s0 : σ)
    (find_origin_dest_nodes find_least_cost_paths : σ → Except (String × σ) σ)
    (process_paths_to_FC : σ → Except (String × σ) (σ × φ × φ))
    (delete_added_graph_features : σ → σ) : σ × QPResponse φ :=
  match find_origin_dest_nodes s0 with
  | Except.error e => (delete_added_graph_features e.2, QPResponse.errorObj e.1)
  | Except.ok s1 =>
    match find_least_cost_paths s1 with
    | Except.error e => (delete_added_graph_features e.2, QPResponse.errorObj e.1)
    | Except.ok s2 =>
      match process_paths_to_FC s2 with
      | Except.error e => (delete_added_graph_features e.2, QPResponse.errorObj e.1)
      | Except.ok r =>
        (delete_added_graph_features r.1, QPResponse.featureCollections r.2.1 r.2.2)

/-- C4: on every exit path of the quietpaths route the final state is the
cleanup function applied to the state the request reached, so
delete_added_graph_features runs before the response is returned; whenever
a PathFinder step raises, the response is the error object carrying
exactly the raised message, and on success it is the feature-collection
pair. -/
theorem quietpaths_route_cleanup {σ φ : Type} (s0 : σ)
    (step1 step2 : σ → Except (String × σ) σ)
    (step3 : σ → Except (String × σ) (σ × φ × φ))
    (cleanup : σ → σ) :
    (∃ s, (quietpaths_route s0 step1 step2 step3 cleanup).1 = cleanup s) ∧
    (∀ msg s, step1 s0 = Except.error (msg, s) →
      quietpaths_route s0 step1 step2 step3 cleanup
        = (cleanup s, QPResponse.errorObj msg)) ∧
    (∀ s1 msg s, step1 s0 = Except.ok s1 → step2 s1 = Except.error (msg, s) →
      quietpaths_route s0 step1 step2 step3 cleanup
        = (cleanup s, QPResponse.errorObj msg)) ∧
    (∀ s1 s2 msg s, step1 s0 = Except.ok s1 → step2 s1 = Except.ok s2 →
      step3 s2 = Except.error (msg, s) →
      quietpaths_route s0 step1 step2 step3 cleanup
        = (cleanup s, QPResponse.errorObj msg)) ∧
    (∀ s1 s2 s3 fc1 fc2, step1 s0 = Except.ok s1 → step2 s1 = Except.ok s2 →
      step3 s2 = Except.ok (s3, fc1, fc2) →
      quietpaths_route s0 step1 step2 step3 cleanup
        = (cleanup s3, QPResponse.featureCollections fc1 fc2)) := by
  refine ⟨?_, ?_, ?_, ?_, ?_⟩
  · cases h1 : step1 s0 with
    | error e => exact ⟨e.2, by simp [quietpaths_route, h1]⟩
    | ok s1 =>
      cases h2 : step2 s1 with
      | error e => exact ⟨e.2, by simp [quietpaths_route, h1, h2]⟩
      | ok s2 =>
        cases h3 : step3 s2 with
        | error e => exact ⟨e.2, by simp [quietpaths_route, h1, h2, h3]⟩
        | ok r => exact ⟨r.1, by simp [quietpaths_route, h1, h2, h3]⟩
  · intro msg s h1
    simp [quietpaths_route, h1]
  · intro s1 msg s h1 h2
    simp [quietpaths_route, h1, h2]
  · intro s1 s2 msg s h1 h2 h3
    simp [quietpaths_route, h1, h2, h3]
  · intro s1 s2 s3 fc1 fc2 h1 h2 h3
    simp [quietpaths_route, h1, h2, h3]

/-- Witness for quietpaths_route_cleanup: the second step raises, the
cleanup function still transforms the reached state, and the response is
the error object with the raised message. -/
theorem quietpaths_route_cleanup_witness :
    quietpaths_route (0 : ℕ) (fun s => Except.ok (s + 1))
      (fun _ => Except.error ("Could not find paths", (7 : ℕ)))
      (fun s => Except.ok (s, (0 : ℕ), (0 : ℕ))) (fun s => s * 10)
      = (70, QPResponse.errorObj "Could not find paths") :=
  (quietpaths_route_cleanup (0 : ℕ) (fun s => Except.ok (s + 1))
    (fun _ => Except.error ("Could not find paths", (7 : ℕ)))
    (fun s => Except.ok (s, (0 : ℕ), (0 : ℕ))) (fun s => s * 10)).2.2.1
    (0 + 1) "Could not find paths" 7 rfl rfl

/-! ## The igraph-backed graph store (graph_handler.py lines 191-358)

The graph library (python-igraph) is third-party; its operations are
modelled with the dense-id semantics the spec's data model states: ids are
0-based positions, appends assign the next position, deletions remove the
listed positions (vertex deletion also removing every incident edge) and
renumber the rest densely. -/

/-- One directed edge: structural endpoints plus the attribute payload.
The edge id is its position in the edge list. -/
structure IEdge (ε : Type) where
  src : ℕ
  tgt : ℕ
  attrs : ε
deriving DecidableEq

/-- The graph: vertices (id = position) with attribute payloads, and
directed edges (id = position). -/
structure IGraph (ν ε : Type) where
  verts : List ν
  edges : List (IEdge ε)
deriving DecidableEq

def IGraph.vcount {ν ε : Type} (g : IGraph ν ε) : ℕ := g.verts.length

def IGraph.ecount {ν ε : Type} (g : IGraph ν ε) : ℕ := g.edges.length

/-- Well-formedness: every edge endpoint is a valid vertex id (igraph
enforces this when edges are added). -/
def IGraph.wf {ν ε : Type} (g : IGraph ν ε) : Prop :=
  ∀ e ∈ g.edges, e.src < g.vcount ∧ e.tgt < g.vcount

/-- igraph add_vertex: appends one vertex. -/
def IGraph.add_vertex {ν ε : Type} (g : IGraph ν ε) (a : ν) : IGraph ν ε :=
  { g with verts := g.verts ++ [a] }

/-- igraph add_edges: appends edges in order, attributes initialized to the
given default (igraph leaves new attributes unset). -/
def IGraph.add_edges {ν ε : Type} (g : IGraph ν ε) (uvs : List (ℕ × ℕ)) (defaultAttr : ε) :
    IGraph ν ε :=
  { g with edges := g.edges ++ uvs.map (fun uv => ⟨uv.1, uv.2, defaultAttr⟩) }

/-- The attribute assignments self.graph.es[eid][key] = value on one edge,
modelled as replacing the payload of the edge at that id; an out-of-range
id leaves the graph unchanged (never exercised: the source assigns only to
edges it just created). -/
def IGraph.set_edge_attrs {ν ε : Type} (g : IGraph ν ε) (eid : ℕ) (a : ε) : IGraph ν ε :=
  match g.edges[eid]? with
  | some e => { g with edges := g.edges.set eid ⟨e.src, e.tgt, a⟩ }
  | none => g

/-- The position of the first element matching a predicate. -/
def findEid {α : Type} (p : α → Bool) : List α → Option ℕ
  | [] => none
  | x :: xs => if p x then some 0 else (findEid p xs).map (· + 1)

/-- igraph get_eid u v: the id of a directed edge from u to v; none models
the igraph error for a missing pair (raised in Python, and caught by the
caller in delete_added_linking_edges). -/
def IGraph.get_eid {ν ε : Type} (g : IGraph ν ε) (u v : ℕ) : Option ℕ :=
  findEid (fun e => e.src == u && e.tgt == v) g.edges

/-- Remove the elements whose position, counted from i, is listed. -/
def removeIdxs {α : Type} (ids : List ℕ) : ℕ → List α → List α
  | _, [] => []
  | i, x :: xs => if i ∈ ids then removeIdxs ids (i+1) xs else x :: removeIdxs ids (i+1) xs

/-- igraph delete_edges: fails (raises) if any id is out of range,
otherwise removes the listed edges; the remaining edges keep their order
and are reindexed densely. -/
def IGraph.delete_edges {ν ε : Type} (g : IGraph ν ε) (ids : List ℕ) : Option (IGraph ν ε) :=
  if ids.all (fun i => i < g.ecount) then
    some { g with edges := removeIdxs ids 0 g.edges }
  else none

/-- Vertex renumbering after deleting the listed vertex ids: an id shifts
down by the number of distinct deleted ids below it. -/
def remapVid (ids : List ℕ) (w : ℕ) : ℕ :=
  w - (ids.dedup.filter (fun i => i < w)).length

/-- igraph delete_vertices: fails (raises) if any id is out of range;
otherwise removes the listed vertices together with every incident edge
and renumbers the remaining vertices and edge endpoints densely. -/
def IGraph.delete_vertices {ν ε : Type} (g : IGraph ν ε) (ids : List ℕ) : Option (IGraph ν ε) :=
  if ids.all (fun i => i < g.vcount) then
    some { verts := removeIdxs ids 0 g.verts,
           edges := (g.edges.filter
               (fun e => !(ids.contains e.src || ids.contains e.tgt))).map
             (fun e => ⟨remapVid ids e.src, remapVid ids e.tgt, e.attrs⟩) }
  else none

/-- graph_handler.py lines 191-194 (get_new_node_id). -/
def get_new_node_id {ν ε : Type} (g : IGraph ν ε) : ℕ := g.vcount

/-- graph_handler.py lines 196-202 (add_new_node_to_graph): the new graph
and the id of the appended node. -/
def add_new_node_to_graph {ν ε : Type} (g : IGraph ν ε) (point : ν) : IGraph ν ε × ℕ :=
  (g.add_vertex point, get_new_node_id g)

/-- graph_handler.py lines 204-205 (get_new_edge_id). -/
def get_new_edge_id {ν ε : Type} (g : IGraph ν ε) : ℕ := g.ecount

/-- graph_handler.py lines 207-211 (add_new_edges_to_graph): bulk append,
returning the assigned ids in order. -/
def add_new_edges_to_graph {ν ε : Type} (g : IGraph ν ε) (defaultAttr : ε)
    (uvs : List (ℕ × ℕ)) : IGraph ν ε × List ℕ :=
  (g.add_edges uvs defaultAttr,
   (List.range uvs.length).map (fun k => get_new_edge_id g + k))

/-- One link descriptor of the splice record (the dicts link1 and link2
built at graph_handler.py lines 281-282): the uv pair stored under E.uv
plus the rest of the attribute dict. -/
structure LinkRecord (ε : Type) where
  uv : ℕ × ℕ
  attrs : ε
deriving DecidableEq

/-- The record returned by create_linking_edges_for_new_node
(graph_handler.py line 285). -/
structure SpliceRecord (ε : Type) where
  node_from : ℕ
  new_node : ℕ
  node_to : ℕ
  link1 : LinkRecord ε
  link2 : LinkRecord ε
deriving DecidableEq

/-- graph_handler.py lines 223-285 (create_linking_edges_for_new_node).
The geometry split into the two sub-lines and the prorated noise and air
quality costs come from utility modules that are not part of the reviewed
source; their outputs flow only into the attribute payloads of the four
new edges, so they enter as the four payload arguments (the merged
attribute dict of each directed edge, in source order: link1 forward,
link1 reversed, link2 forward, link2 reversed).  The inserted edge tuples,
the assignment of attributes to the new ids and the returned record mirror
source lines 266-285. -/
def create_linking_edges_for_new_node {ν ε : Type} (g : IGraph ν ε) (defaultAttr : ε)
    (new_node : ℕ) (parent_uv : ℕ × ℕ)
    (link1_attrs link1_rev_attrs link2_attrs link2_rev_attrs : ε) :
    IGraph ν ε × SpliceRecord ε :=
  let node_from := parent_uv.1
  let node_to := parent_uv.2
  let edge_tuples := [(node_from, new_node), (new_node, node_from),
                      (new_node, node_to), (node_to, new_node)]
  let added := add_new_edges_to_graph g defaultAttr edge_tuples
  let withAttrs := ((added.2).zip
      [link1_attrs, link1_rev_attrs, link2_attrs, link2_rev_attrs]).foldl
    (fun h p => h.set_edge_attrs p.1 p.2) added.1
  (withAttrs,
   { node_from := node_from, new_node := new_node, node_to := node_to,
     link1 := ⟨(new_node, node_from), link1_attrs⟩,
     link2 := ⟨(node_to, new_node), link2_attrs⟩ })

/-- The per-endpoint node dict the Path Finder records for a splice; the
only key delete_added_linking_edges reads is node. -/
structure NodeRecord where
  node : ℕ
deriving DecidableEq

/-- The edge-id collection phase for one splice (graph_handler.py lines
318-341): the two get_eid lookups of one splice share a single try/except
whose handler is pass, so a failure of the first lookup silently skips the
second, and a failure of the second keeps the already appended first id. -/
def collect_splice_eids {ν ε : Type} (g : IGraph ν ε) (edgesOpt : Option (SpliceRecord ε)) :
    List ℕ :=
  match edgesOpt with
  | none => []
  | some r =>
    match g.get_eid r.link1.uv.1 r.link1.uv.2 with
    | none => []
    | some e1 =>
      match g.get_eid r.link2.uv.1 r.link2.uv.2 with
      | none => [e1]
      | some e2 => [e1, e2]

/-- The subscript orig_node['node'], evaluated before the lookups whenever
orig_edges is not None (graph_handler.py lines 318-319): with a missing
node dict this is an uncaught Python TypeError. -/
def spliceNodeIds {ε : Type} (edgesOpt : Option (SpliceRecord ε))
    (nodeOpt : Option NodeRecord) : Except String (List ℕ) :=
  match edgesOpt, nodeOpt with
  | some _, some n => Except.ok [n.node]
  | some _, none => Except.error "TypeError: NoneType is not subscriptable"
  | none, _ => Except.ok []

/-- The final graph and the log lines a cleanup call produces. -/
structure DeleteResult (ν ε : Type) where
  graph : IGraph ν ε
  log : List String
deriving DecidableEq

/-- graph_handler.py lines 306-358 (delete_added_linking_edges).  Node ids
are appended before the lookups of each splice; the two bulk deletions are
each wrapped in their own try/except and logged, and the final count
checks log integrity errors without raising.  ecount0 and vcount0 are the
recorded steady-state counts self.ecount and self.vcount. -/
def delete_added_linking_edges {ν ε : Type} (g : IGraph ν ε) (ecount0 vcount0 : ℕ)
    (orig_edges : Option (SpliceRecord ε)) (orig_node : Option NodeRecord)
    (dest_edges : Option (SpliceRecord ε)) (dest_node : Option NodeRecord) :
    Except String (DeleteResult ν ε) :=
  match spliceNodeIds orig_edges orig_node with
  | Except.error msg => Except.error msg
  | Except.ok onids =>
    match spliceNodeIds dest_edges dest_node with
    | Except.error msg => Except.error msg
    | Except.ok dnids =>
      let delete_edge_ids := collect_splice_eids g orig_edges ++ collect_splice_eids g dest_edges
      let delete_node_ids := onids ++ dnids
      let step1 :=
        match g.delete_edges delete_edge_ids with
        | some h => (h, ["deleted " ++ toString delete_edge_ids.length ++ " edges"])
        | none => (g, ["could not delete added edges from the graph"])
      let step2 :=
        match step1.1.delete_vertices delete_node_ids with
        | some h => (h, ["deleted " ++ toString delete_node_ids.length ++ " nodes"])
        | none => (step1.1, ["could not delete added nodes from the graph"])
      let countLog :=
        (if step2.1.ecount ≠ ecount0 then
          ["graph has incorrect number of edges: " ++ toString step2.1.ecount
            ++ " is not " ++ toString ecount0]
         else []) ++
        (if step2.1.vcount ≠ vcount0 then
          ["graph has incorrect number of nodes: " ++ toString step2.1.vcount
            ++ " is not " ++ toString vcount0]
         else [])
      Except.ok ⟨step2.1, step1.2 ++ step2.2 ++ countLog⟩

/-! ## Helper lemmas about the list-level graph primitives -/

theorem findEid_append_of_all_false {α : Type} (p : α → Bool) (l₁ l₂ : List α)
    (h : ∀ x ∈ l₁, p x = false) :
    findEid p (l₁ ++ l₂) = (findEid p l₂).map (· + l₁.length) := by
  induction l₁ with
  | nil =>
    rw [List.nil_append]
    cases hfe : findEid p l₂ <;> simp [hfe]
  | cons a as ih =>
    have ha := h a (by simp)
    rw [List.cons_append]
    show (if p a = true then some 0 else (findEid p (as ++ l₂)).map (· + 1)) = _
    rw [ha]
    simp only [Bool.false_eq_true, if_false]
    rw [ih (fun x hx => h x (by simp [hx]))]
    cases hfe : findEid p l₂ with
    | none => simp
    | some k =>
      simp only [Option.map_some']
      congr 1

theorem removeIdxs_append_high {α : Type} (ids : List ℕ) (l₁ l₂ : List α) (i : ℕ)
    (h : ∀ j ∈ ids, ¬ j < i + l₁.length) :
    removeIdxs ids i (l₁ ++ l₂) = l₁ ++ removeIdxs ids (i + l₁.length) l₂ := by
  induction l₁ generalizing i with
  | nil =>
    simp [removeIdxs]
  | cons a as ih =>
    have hni : i ∉ ids := by
      intro hmem
      exact h i hmem (by simp only [List.length_cons]; omega)
    rw [List.cons_append]
    show (if i ∈ ids then removeIdxs ids (i+1) (as ++ l₂)
          else a :: removeIdxs ids (i+1) (as ++ l₂)) = _
    rw [if_neg hni]
    rw [ih (i+1) (fun j hj => by
      have := h j hj
      simp only [List.length_cons] at this ⊢
      omega)]
    have harith : i + 1 + as.length = i + (a :: as).length := by
      simp only [List.length_cons]
      omega
    rw [harith, List.cons_append]

theorem list_map_id_on {α : Type} (l : List α) (f : α → α) (h : ∀ a ∈ l, f a = a) :
    l.map f = l := by
  induction l with
  | nil => rfl
  | cons a as ih =>
    rw [List.map_cons, h a (by simp), ih (fun x hx => h x (by simp [hx]))]

theorem set_edge_attrs_append {ν ε : Type} (verts : List ν) (l₁ l₂ : List (IEdge ε))
    (k : ℕ) (a : ε) (e : IEdge ε) (hk : l₂[k]? = some e) :
    IGraph.set_edge_attrs ⟨verts, l₁ ++ l₂⟩ (l₁.length + k) a
      = ⟨verts, l₁ ++ l₂.set k ⟨e.src, e.tgt, a⟩⟩ := by
  unfold IGraph.set_edge_attrs
  have h1 : (l₁ ++ l₂)[l₁.length + k]? = some e := by
    rw [List.getElem?_append_right (by omega)]
    simpa using hk
  dsimp only
  rw [h1]
  dsimp only
  rw [List.set_append_right _ _ (by omega)]
  rw [Nat.add_sub_cancel_left]

/-- The graph produced by create_linking_edges_for_new_node: the vertices
are untouched and exactly the four directed linking edges are appended,
each carrying its attribute payload. -/
theorem create_linking_edges_shape {ν ε : Type} (g : IGraph ν ε) (defaultAttr : ε)
    (nn uf ut : ℕ) (a0 a1 a2 a3 : ε) :
    (create_linking_edges_for_new_node g defaultAttr nn (uf, ut) a0 a1 a2 a3).1
      = ⟨g.verts, g.edges ++ [⟨uf, nn, a0⟩, ⟨nn, uf, a1⟩, ⟨nn, ut, a2⟩, ⟨ut, nn, a3⟩]⟩ := by
  unfold create_linking_edges_for_new_node add_new_edges_to_graph IGraph.add_edges
    get_new_edge_id IGraph.ecount
  dsimp only
  rw [show ([(uf, nn), (nn, uf), (nn, ut), (ut, nn)] : List (ℕ × ℕ)).length = 4 from rfl]
  rw [show (((List.range 4).map (fun k => g.edges.length + k)).zip [a0, a1, a2, a3])
      = [(g.edges.length + 0, a0), (g.edges.length + 1, a1),
         (g.edges.length + 2, a2), (g.edges.length + 3, a3)] from rfl]
  simp only [List.foldl_cons, List.foldl_nil]
  rw [set_edge_attrs_append g.verts g.edges _ 0 a0 ⟨uf, nn, defaultAttr⟩ rfl]
  rw [set_edge_attrs_append g.verts g.edges _ 1 a1 ⟨nn, uf, defaultAttr⟩ rfl]
  rw [set_edge_attrs_append g.verts g.edges _ 2 a2 ⟨nn, ut, defaultAttr⟩ rfl]
  rw [set_edge_attrs_append g.verts g.edges _ 3 a3 ⟨ut, nn, defaultAttr⟩ rfl]
  rfl

/-- Deleting the freshly added vertex removes it together with its two
remaining incident linking edges and leaves every pre-existing vertex and
edge, attributes included, exactly as before. -/
theorem delete_cleanup_tail {ν ε : Type} (g : IGraph ν ε) (hwf : g.wf) (point : ν)
    (eA eB : IEdge ε) (hA : eA.src = g.vcount ∨ eA.tgt = g.vcount)
    (hB : eB.src = g.vcount ∨ eB.tgt = g.vcount) :
    IGraph.delete_vertices ⟨g.verts ++ [point], g.edges ++ [eA, eB]⟩ [g.vcount] = some g := by
  unfold IGraph.delete_vertices
  rw [if_pos (by simp [IGraph.vcount])]
  have hverts : removeIdxs [g.vcount] 0 (g.verts ++ [point]) = g.verts := by
    rw [removeIdxs_append_high [g.vcount] g.verts [point] 0
      (by intro j hj; simp [IGraph.vcount] at hj ⊢; omega)]
    show g.verts ++ (if 0 + g.verts.length ∈ [g.vcount] then removeIdxs _ _ []
                     else (point : ν) :: removeIdxs _ _ []) = g.verts
    rw [if_pos (by simp [IGraph.vcount])]
    simp [removeIdxs]
  have hfilter : (g.edges ++ [eA, eB]).filter
      (fun e => !([g.vcount].contains e.src || [g.vcount].contains e.tgt)) = g.edges := by
    rw [List.filter_append]
    have h1 : g.edges.filter
        (fun e => !([g.vcount].contains e.src || [g.vcount].contains e.tgt)) = g.edges := by
      apply List.filter_eq_self.mpr
      intro e he
      have h1 := Nat.ne_of_lt (hwf e he).1
      have h2 := Nat.ne_of_lt (hwf e he).2
      simp [List.contains, h1, h2]
    have h2 : ([eA, eB]).filter
        (fun e => !([g.vcount].contains e.src || [g.vcount].contains e.tgt)) = [] := by
      have hAq : ([g.vcount].contains eA.src || [g.vcount].contains eA.tgt) = true := by
        cases hA with
        | inl h => simp [List.contains, h]
        | inr h => simp [List.contains, h]
      have hBq : ([g.vcount].contains eB.src || [g.vcount].contains eB.tgt) = true := by
        cases hB with
        | inl h => simp [List.contains, h]
        | inr h => simp [List.contains, h]
      have hpA : (!([g.vcount].contains eA.src || [g.vcount].contains eA.tgt)) = false := by
        rw [hAq]
        rfl
      have hpB : (!([g.vcount].contains eB.src || [g.vcount].contains eB.tgt)) = false := by
        rw [hBq]
        rfl
      simp only [List.filter_cons, hpA, hpB, Bool.false_eq_true, if_false, List.filter_nil]
    rw [h1, h2, List.append_nil]
  have hmap : ∀ e ∈ g.edges,
      (⟨remapVid [g.vcount] e.src, remapVid [g.vcount] e.tgt, e.attrs⟩ : IEdge ε) = e := by
    intro e he
    have h1 : remapVid [g.vcount] e.src = e.src := by
      unfold remapVid
      have : ([g.vcount].dedup.filter (fun i => i < e.src)) = [] := by
        have hnot : ¬ (g.vcount < e.src) := by
          have := (hwf e he).1
          omega
        simp [List.dedup, hnot]
      rw [this]
      simp
    have h2 : remapVid [g.vcount] e.tgt = e.tgt := by
      unfold remapVid
      have : ([g.vcount].dedup.filter (fun i => i < e.tgt)) = [] := by
        have hnot : ¬ (g.vcount < e.tgt) := by
          have := (hwf e he).2
          omega
        simp [List.dedup, hnot]
      rw [this]
      simp
    rw [h1, h2]
  dsimp only
  rw [hverts, hfilter, list_map_id_on g.edges _ hmap]

set_option maxHeartbeats 1000000 in
/-- C1: splice round-trip.  For every well-formed steady-state graph, every
parent edge (uf, ut) and arbitrary attribute payloads of the four linking
edges (the sub-line geometries and prorated costs computed by the utility
modules), adding the split-point node, creating the linking edges and then
deleting them through the returned splice record restores the vertex list
and the edge list exactly, attributes of every pre-existing element
included, and logs exactly the two deletions with no integrity error. -/
theorem splice_round_trip {ν ε : Type} (g : IGraph ν ε) (hwf : g.wf) (point : ν)
    (defaultAttr : ε) (uf ut : ℕ) (huf : uf < g.vcount) (hut : ut < g.vcount)
    (a0 a1 a2 a3 : ε) :
    delete_added_linking_edges
        (create_linking_edges_for_new_node (add_new_node_to_graph g point).1 defaultAttr
          (add_new_node_to_graph g point).2 (uf, ut) a0 a1 a2 a3).1
        g.ecount g.vcount
        (some (create_linking_edges_for_new_node (add_new_node_to_graph g point).1 defaultAttr
          (add_new_node_to_graph g point).2 (uf, ut) a0 a1 a2 a3).2)
        (some ⟨(add_new_node_to_graph g point).2⟩) none none
      = Except.ok ⟨g, ["deleted 2 edges", "deleted 1 nodes"]⟩ := by
  have hg1 : (add_new_node_to_graph g point).1
      = (⟨g.verts ++ [point], g.edges⟩ : IGraph ν ε) := rfl
  have hn2 : (add_new_node_to_graph g point).2 = g.vcount := rfl
  rw [hg1, hn2]
  rw [create_linking_edges_shape ⟨g.verts ++ [point], g.edges⟩ defaultAttr g.vcount uf ut
    a0 a1 a2 a3]
  have hrec : (create_linking_edges_for_new_node ⟨g.verts ++ [point], g.edges⟩ defaultAttr
      g.vcount (uf, ut) a0 a1 a2 a3).2
      = ⟨uf, g.vcount, ut, ⟨(g.vcount, uf), a0⟩, ⟨(ut, g.vcount), a2⟩⟩ := rfl
  rw [hrec]
  dsimp only
  have hbuf : (uf == g.vcount) = false := beq_eq_false_iff_ne.mpr (Nat.ne_of_lt huf)
  have hbvcuf : (g.vcount == uf) = false :=
    beq_eq_false_iff_ne.mpr (Ne.symm (Nat.ne_of_lt huf))
  have hbvcut : (g.vcount == ut) = false :=
    beq_eq_false_iff_ne.mpr (Ne.symm (Nat.ne_of_lt hut))
  have hall1 : ∀ x ∈ g.edges, (x.src == g.vcount && x.tgt == uf) = false := by
    intro x hx
    rw [beq_eq_false_iff_ne.mpr (Nat.ne_of_lt (hwf x hx).1), Bool.false_and]
  have hall2 : ∀ x ∈ g.edges, (x.src == ut && x.tgt == g.vcount) = false := by
    intro x hx
    rw [beq_eq_false_iff_ne.mpr (Nat.ne_of_lt (hwf x hx).2), Bool.and_false]
  have hfind1 : IGraph.get_eid
      (⟨g.verts ++ [point],
        g.edges ++ [⟨uf, g.vcount, a0⟩, ⟨g.vcount, uf, a1⟩,
                    ⟨g.vcount, ut, a2⟩, ⟨ut, g.vcount, a3⟩]⟩ : IGraph ν ε)
      g.vcount uf = some (1 + g.edges.length) := by
    show findEid _ (g.edges ++ _) = _
    rw [findEid_append_of_all_false _ g.edges _ hall1]
    rw [show findEid (fun e => e.src == g.vcount && e.tgt == uf)
        [(⟨uf, g.vcount, a0⟩ : IEdge ε), ⟨g.vcount, uf, a1⟩,
         ⟨g.vcount, ut, a2⟩, ⟨ut, g.vcount, a3⟩] = some 1 from by
      simp [findEid, hbuf]]
    rfl
  by_cases hc : uf = ut
  · subst hc
    have hfind2 : IGraph.get_eid
        (⟨g.verts ++ [point],
          g.edges ++ [⟨uf, g.vcount, a0⟩, ⟨g.vcount, uf, a1⟩,
                      ⟨g.vcount, uf, a2⟩, ⟨uf, g.vcount, a3⟩]⟩ : IGraph ν ε)
        uf g.vcount = some (0 + g.edges.length) := by
      show findEid _ (g.edges ++ _) = _
      rw [findEid_append_of_all_false _ g.edges _ hall2]
      rw [show findEid (fun e => e.src == uf && e.tgt == g.vcount)
          [(⟨uf, g.vcount, a0⟩ : IEdge ε), ⟨g.vcount, uf, a1⟩,
           ⟨g.vcount, uf, a2⟩, ⟨uf, g.vcount, a3⟩] = some 0 from by
        simp [findEid]]
      rfl
    rw [Nat.zero_add] at hfind2
    have hcol : collect_splice_eids
        (⟨g.verts ++ [point],
          g.edges ++ [⟨uf, g.vcount, a0⟩, ⟨g.vcount, uf, a1⟩,
                      ⟨g.vcount, uf, a2⟩, ⟨uf, g.vcount, a3⟩]⟩ : IGraph ν ε)
        (some ⟨uf, g.vcount, uf, ⟨(g.vcount, uf), a0⟩, ⟨(uf, g.vcount), a2⟩⟩)
        = [1 + g.edges.length, g.edges.length] := by
      unfold collect_splice_eids
      dsimp only
      rw [hfind1, hfind2]
    have hm0 : g.edges.length ∈ [1 + g.edges.length, g.edges.length] := by
      simp
    have hm1 : g.edges.length + 1 ∈ [1 + g.edges.length, g.edges.length] := by
      simp only [List.mem_cons, List.mem_singleton]
      omega
    have hm2 : g.edges.length + 1 + 1 ∉ [1 + g.edges.length, g.edges.length] := by
      intro hmem
      simp only [List.mem_cons, List.mem_singleton, List.not_mem_nil, or_false] at hmem
      omega
    have hm3 : g.edges.length + 1 + 1 + 1 ∉ [1 + g.edges.length, g.edges.length] := by
      intro hmem
      simp only [List.mem_cons, List.mem_singleton, List.not_mem_nil, or_false] at hmem
      omega
    have hdelE : IGraph.delete_edges
        (⟨g.verts ++ [point],
          g.edges ++ [⟨uf, g.vcount, a0⟩, ⟨g.vcount, uf, a1⟩,
                      ⟨g.vcount, uf, a2⟩, ⟨uf, g.vcount, a3⟩]⟩ : IGraph ν ε)
        [1 + g.edges.length, g.edges.length]
        = some ⟨g.verts ++ [point],
            g.edges ++ [⟨g.vcount, uf, a2⟩, ⟨uf, g.vcount, a3⟩]⟩ := by
      unfold IGraph.delete_edges
      rw [if_pos (by
        simp only [List.all_cons, List.all_nil, Bool.and_true, Bool.and_eq_true,
          decide_eq_true_eq, IGraph.ecount, List.length_append, List.length_cons,
          List.length_nil]
        omega)]
      have hedges : removeIdxs [1 + g.edges.length, g.edges.length] 0
          (g.edges ++ [(⟨uf, g.vcount, a0⟩ : IEdge ε), ⟨g.vcount, uf, a1⟩,
                       ⟨g.vcount, uf, a2⟩, ⟨uf, g.vcount, a3⟩])
          = g.edges ++ [⟨g.vcount, uf, a2⟩, ⟨uf, g.vcount, a3⟩] := by
        rw [removeIdxs_append_high _ g.edges _ 0 (by
          intro j hj
          simp only [List.mem_cons, List.not_mem_nil, or_false] at hj
          omega)]
        rw [Nat.zero_add]
        simp only [removeIdxs]
        rw [if_pos hm0, if_pos hm1, if_neg hm2, if_neg hm3]
      rw [hedges]
    show delete_added_linking_edges _ _ _ _ _ _ _ = _
    unfold delete_added_linking_edges
    dsimp only [spliceNodeIds]
    rw [hcol]
    rw [show collect_splice_eids
        (⟨g.verts ++ [point],
          g.edges ++ [⟨uf, g.vcount, a0⟩, ⟨g.vcount, uf, a1⟩,
                      ⟨g.vcount, uf, a2⟩, ⟨uf, g.vcount, a3⟩]⟩ : IGraph ν ε)
        none = [] from rfl]
    simp only [List.append_nil]
    rw [hdelE]
    dsimp only
    rw [delete_cleanup_tail g hwf point ⟨g.vcount, uf, a2⟩ ⟨uf, g.vcount, a3⟩
      (Or.inl rfl) (Or.inr rfl)]
    dsimp only
    rw [if_neg (fun h => h rfl), if_neg (fun h => h rfl)]
    rw [show ([1 + g.edges.length, g.edges.length] : List ℕ).length = 2 from rfl]
    rw [show ([g.vcount] : List ℕ).length = 1 from rfl]
    rfl
  · have hbufut : (uf == ut) = false := beq_eq_false_iff_ne.mpr hc
    have hfind2 : IGraph.get_eid
        (⟨g.verts ++ [point],
          g.edges ++ [⟨uf, g.vcount, a0⟩, ⟨g.vcount, uf, a1⟩,
                      ⟨g.vcount, ut, a2⟩, ⟨ut, g.vcount, a3⟩]⟩ : IGraph ν ε)
        ut g.vcount = some (3 + g.edges.length) := by
      show findEid _ (g.edges ++ _) = _
      rw [findEid_append_of_all_false _ g.edges _ hall2]
      rw [show findEid (fun e => e.src == ut && e.tgt == g.vcount)
          [(⟨uf, g.vcount, a0⟩ : IEdge ε), ⟨g.vcount, uf, a1⟩,
           ⟨g.vcount, ut, a2⟩, ⟨ut, g.vcount, a3⟩] = some 3 from by
        simp [findEid, hbufut, hbvcut]]
      rfl
    have hcol : collect_splice_eids
        (⟨g.verts ++ [point],
          g.edges ++ [⟨uf, g.vcount, a0⟩, ⟨g.vcount, uf, a1⟩,
                      ⟨g.vcount, ut, a2⟩, ⟨ut, g.vcount, a3⟩]⟩ : IGraph ν ε)
        (some ⟨uf, g.vcount, ut, ⟨(g.vcount, uf), a0⟩, ⟨(ut, g.vcount), a2⟩⟩)
        = [1 + g.edges.length, 3 + g.edges.length] := by
      unfold collect_splice_eids
      dsimp only
      rw [hfind1, hfind2]
    have hm0 : g.edges.length ∉ [1 + g.edges.length, 3 + g.edges.length] := by
      intro hmem
      simp only [List.mem_cons, List.mem_singleton, List.not_mem_nil, or_false] at hmem
      omega
    have hm1 : g.edges.length + 1 ∈ [1 + g.edges.length, 3 + g.edges.length] := by
      simp only [List.mem_cons, List.mem_singleton]
      omega
    have hm2 : g.edges.length + 1 + 1 ∉ [1 + g.edges.length, 3 + g.edges.length] := by
      intro hmem
      simp only [List.mem_cons, List.mem_singleton, List.not_mem_nil, or_false] at hmem
      omega
    have hm3 : g.edges.length + 1 + 1 + 1 ∈ [1 + g.edges.length, 3 + g.edges.length] := by
      simp only [List.mem_cons, List.mem_singleton]
      omega
    have hdelE : IGraph.delete_edges
        (⟨g.verts ++ [point],
          g.edges ++ [⟨uf, g.vcount, a0⟩, ⟨g.vcount, uf, a1⟩,
                      ⟨g.vcount, ut, a2⟩, ⟨ut, g.vcount, a3⟩]⟩ : IGraph ν ε)
        [1 + g.edges.length, 3 + g.edges.length]
        = some ⟨g.verts ++ [point],
            g.edges ++ [⟨uf, g.vcount, a0⟩, ⟨g.vcount, ut, a2⟩]⟩ := by
      unfold IGraph.delete_edges
      rw [if_pos (by
        simp only [List.all_cons, List.all_nil, Bool.and_true, Bool.and_eq_true,
          decide_eq_true_eq, IGraph.ecount, List.length_append, List.length_cons,
          List.length_nil]
        omega)]
      have hedges : removeIdxs [1 + g.edges.length, 3 + g.edges.length] 0
          (g.edges ++ [(⟨uf, g.vcount, a0⟩ : IEdge ε), ⟨g.vcount, uf, a1⟩,
                       ⟨g.vcount, ut, a2⟩, ⟨ut, g.vcount, a3⟩])
          = g.edges ++ [⟨uf, g.vcount, a0⟩, ⟨g.vcount, ut, a2⟩] := by
        rw [removeIdxs_append_high _ g.edges _ 0 (by
          intro j hj
          simp only [List.mem_cons, List.not_mem_nil, or_false] at hj
          omega)]
        rw [Nat.zero_add]
        simp only [removeIdxs]
        rw [if_neg hm0, if_pos hm1, if_neg hm2, if_pos hm3]
      rw [hedges]
    show delete_added_linking_edges _ _ _ _ _ _ _ = _
    unfold delete_added_linking_edges
    dsimp only [spliceNodeIds]
    rw [hcol]
    rw [show collect_splice_eids
        (⟨g.verts ++ [point],
          g.edges ++ [⟨uf, g.vcount, a0⟩, ⟨g.vcount, uf, a1⟩,
                      ⟨g.vcount, ut, a2⟩, ⟨ut, g.vcount, a3⟩]⟩ : IGraph ν ε)
        none = [] from rfl]
    simp only [List.append_nil]
    rw [hdelE]
    dsimp only
    rw [delete_cleanup_tail g hwf point ⟨uf, g.vcount, a0⟩ ⟨g.vcount, ut, a2⟩
      (Or.inr rfl) (Or.inl rfl)]
    dsimp only
    rw [if_neg (fun h => h rfl), if_neg (fun h => h rfl)]
    rw [show ([1 + g.edges.length, 3 + g.edges.length] : List ℕ).length = 2 from rfl]
    rw [show ([g.vcount] : List ℕ).length = 1 from rfl]
    rfl

/-- Witness for splice_round_trip: a two-node, one-edge graph spliced on
its only edge. -/
theorem splice_round_trip_witness :
    delete_added_linking_edges
        (create_linking_edges_for_new_node
          (add_new_node_to_graph (⟨[7, 8], [⟨0, 1, 5⟩]⟩ : IGraph ℕ ℕ) 9).1 0
          (add_new_node_to_graph (⟨[7, 8], [⟨0, 1, 5⟩]⟩ : IGraph ℕ ℕ) 9).2
          (0, 1) 11 12 13 14).1
        (IGraph.ecount (⟨[7, 8], [⟨0, 1, 5⟩]⟩ : IGraph ℕ ℕ))
        (IGraph.vcount (⟨[7, 8], [⟨0, 1, 5⟩]⟩ : IGraph ℕ ℕ))
        (some (create_linking_edges_for_new_node
          (add_new_node_to_graph (⟨[7, 8], [⟨0, 1, 5⟩]⟩ : IGraph ℕ ℕ) 9).1 0
          (add_new_node_to_graph (⟨[7, 8], [⟨0, 1, 5⟩]⟩ : IGraph ℕ ℕ) 9).2
          (0, 1) 11 12 13 14).2)
        (some ⟨(add_new_node_to_graph (⟨[7, 8], [⟨0, 1, 5⟩]⟩ : IGraph ℕ ℕ) 9).2⟩) none none
      = Except.ok ⟨⟨[7, 8], [⟨0, 1, 5⟩]⟩, ["deleted 2 edges", "deleted 1 nodes"]⟩ :=
  splice_round_trip ⟨[7, 8], [⟨0, 1, 5⟩]⟩
    (by
      intro e he
      simp only [List.mem_singleton] at he
      subst he
      exact ⟨by decide, by decide⟩)
    9 0 0 1 (by decide) (by decide) 11 12 13 14

/-- The graph used to refute claim C8: a steady-state parent edge (0, 1)
plus the four linking edges of a destination splice through node 2. -/
def cexG8 : IGraph ℕ ℕ :=
  ⟨[0, 0, 0], [⟨0, 1, 0⟩, ⟨0, 2, 0⟩, ⟨2, 0, 0⟩, ⟨2, 1, 0⟩, ⟨1, 2, 0⟩]⟩

/-- An origin splice record whose link uv pairs resolve to no edge and
whose node id 99 is invalid. -/
def cexOrigRec : SpliceRecord ℕ := ⟨0, 99, 1, ⟨(7, 8), 0⟩, ⟨(8, 9), 0⟩⟩

/-- The destination splice record of cexG8, fully resolvable. -/
def cexDestRec : SpliceRecord ℕ := ⟨0, 2, 1, ⟨(2, 0), 0⟩, ⟨(1, 2), 0⟩⟩

/-- C8 counterexample: the origin record's first lookup fails and is
swallowed by pass without any log line, and the origin node id 99 makes
the single batched delete_vertices call raise, which is caught once for
the whole batch: the destination splice's node 2 and its two remaining
linking edges survive (counts 3 and 3 against the recorded 1 and 2), so
one failure did prevent the deletion of the other splice's node, and no
failure was logged individually. -/
theorem cleanup_isolation_cex :
    delete_added_linking_edges cexG8 1 2 (some cexOrigRec) (some ⟨99⟩)
        (some cexDestRec) (some ⟨2⟩)
      = Except.ok ⟨⟨[0, 0, 0], [⟨0, 1, 0⟩, ⟨0, 2, 0⟩, ⟨2, 1, 0⟩]⟩,
          ["deleted 2 edges", "could not delete added nodes from the graph",
           "graph has incorrect number of edges: 3 is not 1",
           "graph has incorrect number of nodes: 3 is not 2"]⟩ ∧
    cexG8.get_eid 7 8 = none ∧
    IGraph.get_eid cexG8 8 9 = none ∧
    collect_splice_eids cexG8 (some cexOrigRec) = [] :=
  ⟨rfl, rfl, rfl, rfl⟩

/-- C8 amended: failures in delete_added_linking_edges are caught per
phase, not per element: the two lookups of a splice share one silent
try/except, and each bulk deletion is caught and logged as a batch; the
operation itself never raises to its caller as long as each given edges
record is accompanied by its node record. -/
theorem cleanup_never_raises {ν ε : Type} (g : IGraph ν ε) (ecount0 vcount0 : ℕ)
    (orig_edges dest_edges : Option (SpliceRecord ε))
    (orig_node dest_node : Option NodeRecord)
    (h1 : orig_edges.isSome → orig_node.isSome)
    (h2 : dest_edges.isSome → dest_node.isSome) :
    ∃ r, delete_added_linking_edges g ecount0 vcount0 orig_edges orig_node
        dest_edges dest_node = Except.ok r := by
  have ho : ∃ l, spliceNodeIds orig_edges orig_node = Except.ok l := by
    cases orig_edges with
    | none => exact ⟨[], rfl⟩
    | some r =>
      cases orig_node with
      | none =>
        exfalso
        have := h1 rfl
        simp at this
      | some n => exact ⟨[n.node], rfl⟩
  have hd : ∃ l, spliceNodeIds dest_edges dest_node = Except.ok l := by
    cases dest_edges with
    | none => exact ⟨[], rfl⟩
    | some r =>
      cases dest_node with
      | none =>
        exfalso
        have := h2 rfl
        simp at this
      | some n => exact ⟨[n.node], rfl⟩
  obtain ⟨lo, hlo⟩ := ho
  obtain ⟨ld, hld⟩ := hd
  unfold delete_added_linking_edges
  rw [hlo, hld]
  exact ⟨_, rfl⟩

/-- Witness for cleanup_never_raises at a call with no splices. -/
theorem cleanup_never_raises_witness :
    ∃ r, delete_added_linking_edges (⟨[0], []⟩ : IGraph ℕ ℕ) 0 1 none none none none
        = Except.ok r :=
  cleanup_never_raises ⟨[0], []⟩ 0 1 none none none none (fun h => h) (fun h => h)

/-! ## Nearest-edge search (graph_handler.py lines 150-168)

Geometry is modelled in exact rationals.  Euclidean distances are carried
as their squares, and the comparison shortest_dist < radius becomes
squared distance < radius * radius, an equivalent monotone transform for
the non-negative quantities involved. -/

/-- A point of the projected plane. -/
abbrev PPoint := ℚ × ℚ

/-- An edge geometry: the vertex chain of a LineString. -/
abbrev PLine := List PPoint

/-- Squared Euclidean distance from p to the segment from a to b (the
clamped projection onto the segment). -/
def segDistSq (p a b : PPoint) : ℚ :=
  let dx := b.1 - a.1
  let dy := b.2 - a.2
  let len2 := dx * dx + dy * dy
  if len2 = 0 then (p.1 - a.1) ^ 2 + (p.2 - a.2) ^ 2
  else
    let t := ((p.1 - a.1) * dx + (p.2 - a.2) * dy) / len2
    let tc := max 0 (min 1 t)
    (p.1 - (a.1 + tc * dx)) ^ 2 + (p.2 - (a.2 + tc * dy)) ^ 2

/-- Squared distance from p to a chain (shapely geom.distance, squared):
the minimum over the segments. -/
def lineDistSq (p : PPoint) : PLine → ℚ
  | [] => 0
  | [a] => (p.1 - a.1) ^ 2 + (p.2 - a.2) ^ 2
  | a :: b :: rest => min (segDistSq p a b) (lineDistSq p (b :: rest))

/-- Bounding box (minx, miny, maxx, maxy) of a chain. -/
def bboxOfLine : PLine → ℚ × ℚ × ℚ × ℚ
  | [] => (0, 0, 0, 0)
  | q :: rest =>
    rest.foldl (fun bb c =>
      (min bb.1 c.1, min bb.2.1 c.2, max bb.2.2.1 c.1, max bb.2.2.2 c.2))
      (q.1, q.2, q.1, q.2)

/-- Axis-aligned rectangle intersection on (minx, miny, maxx, maxy). -/
def rectsIntersect (r1 r2 : ℚ × ℚ × ℚ × ℚ) : Bool :=
  decide (r1.1 ≤ r2.2.2.1 ∧ r2.1 ≤ r1.2.2.1 ∧ r1.2.1 ≤ r2.2.2.2 ∧ r2.2.1 ≤ r1.2.2.2)

/-- One row of the edge GeoDataFrame: the edge id (the frame index) and
the projected geometry. -/
structure SpatialEdge where
  eid : ℕ
  geom : PLine
deriving DecidableEq

/-- The R-tree query sindex.intersection(point.buffer(radius).bounds):
the edges whose geometry bounding box intersects the bounding box of the
buffer, the square of half-side radius centered on the point. -/
def candidates (edges : List SpatialEdge) (p : PPoint) (radius : ℚ) : List SpatialEdge :=
  edges.filter (fun e =>
    rectsIntersect (bboxOfLine e.geom)
      (p.1 - radius, p.2 - radius, p.1 + radius, p.2 + radius))

/-- Minimum of a list of rationals (pandas Series.min); 0 on the empty
list, which the source never queries. -/
def listMin : List ℚ → ℚ
  | [] => 0
  | x :: xs => xs.foldl min x

/-- The loop of find_nearest_edge over the radius list.  The state is the
latest possible_matches_index together with, once some radius had
candidates, the latest scored candidate list and its minimum distance;
the loop breaks as soon as that minimum is below the current radius. -/
def find_nearest_edge_aux (edges : List SpatialEdge) (p : PPoint) :
    List ℚ → List SpatialEdge × Option (List (SpatialEdge × ℚ) × ℚ) →
    List SpatialEdge × Option (List (SpatialEdge × ℚ) × ℚ)
  | [], st => st
  | r :: rs, st =>
    let idx := candidates edges p r
    if idx ≠ [] then
      let pm := idx.map (fun e => (e, lineDistSq p e.geom))
      let sd := listMin (pm.map Prod.snd)
      if sd < r * r then (idx, some (pm, sd))
      else find_nearest_edge_aux edges p rs (idx, some (pm, sd))
    else find_nearest_edge_aux edges p rs (idx, st.2)

/-- graph_handler.py lines 150-168 (find_nearest_edge), returning the id
of the chosen edge (the source then returns that edge's attribute dict
via get_edge_by_id).  The radius sequence is [35, 150, 400, 650]; after
the loop, an empty index list yields None (logged as an error), otherwise
the first row whose distance equals the minimum is returned.  The inner
none arms are unreachable (see find_nearest_edge_absent_iff). -/
def find_nearest_edge (edges : List SpatialEdge) (p : PPoint) : Option ℕ :=
  let st := find_nearest_edge_aux edges p [35, 150, 400, 650] ([], none)
  if st.1 = [] then none
  else
    match st.2 with
    | none => none
    | some pmsd =>
      match pmsd.1.find? (fun q => q.2 == pmsd.2) with
      | some q => some q.1.eid
      | none => none

/-- The edge refuting the 650 m bound of claim C6: its bounding box
touches the 650 m query box of the origin while its true distance from
the origin exceeds 650 m. -/
def cexSpEdge : SpatialEdge := ⟨7, [(649, 649), (649, 700)]⟩

/-- The query point of the C6 counterexample. -/
def cexPt : PPoint := (0, 0)

/-- C6 counterexample: for the single edge cexSpEdge and the query point
(0, 0), the code returns the edge (id 7) although its true distance from
the point is greater than 650 m (squared: 842402 > 422500), because the
bounding-box query at radius 650 yields it as a candidate and the loop
then falls through with its stale candidate set; the claim says absent
should be returned exactly when no edge lies within 650 m. -/
theorem find_nearest_edge_cex :
    find_nearest_edge [cexSpEdge] cexPt = some 7 ∧
    650 * 650 < lineDistSq cexPt cexSpEdge.geom := by
  have hseg : segDistSq cexPt (649, 649) (649, 700) = 842402 := by
    norm_num [segDistSq, cexPt, min_def, max_def]
  have hline : lineDistSq cexPt cexSpEdge.geom = 842402 := by
    show min (segDistSq cexPt (649, 649) (649, 700)) (lineDistSq cexPt [(649, 700)]) = _
    rw [hseg]
    norm_num [lineDistSq, cexPt, min_def]
  have hbb : bboxOfLine cexSpEdge.geom = (649, 649, 649, 700) := by
    norm_num [bboxOfLine, cexSpEdge, min_def, max_def]
  have h35 : candidates [cexSpEdge] cexPt 35 = [] := by
    simp only [candidates, List.filter_cons, List.filter_nil, hbb]
    norm_num [rectsIntersect, hbb, cexPt]
  have h150 : candidates [cexSpEdge] cexPt 150 = [] := by
    simp only [candidates, List.filter_cons, List.filter_nil, hbb]
    norm_num [rectsIntersect, hbb, cexPt]
  have h400 : candidates [cexSpEdge] cexPt 400 = [] := by
    simp only [candidates, List.filter_cons, List.filter_nil, hbb]
    norm_num [rectsIntersect, hbb, cexPt]
  have h650 : candidates [cexSpEdge] cexPt 650 = [cexSpEdge] := by
    simp only [candidates, List.filter_cons, List.filter_nil, hbb]
    norm_num [rectsIntersect, hbb, cexPt]
  have haux : find_nearest_edge_aux [cexSpEdge] cexPt [35, 150, 400, 650] ([], none)
      = ([cexSpEdge], some ([(cexSpEdge, 842402)], 842402)) := by
    norm_num [find_nearest_edge_aux, h35, h150, h400, h650, hline, listMin]
  constructor
  · norm_num [find_nearest_edge, haux, List.find?]
    rfl
  · rw [hline]
    norm_num

theorem foldlMin_mem (x : ℚ) (xs : List ℚ) : xs.foldl min x ∈ x :: xs := by
  induction xs generalizing x with
  | nil => simp [List.foldl]
  | cons y ys ih =>
    have h := ih (min x y)
    rw [List.foldl_cons]
    rcases List.mem_cons.mp h with h1 | h1
    · rw [h1]
      rcases min_choice x y with hm | hm
      · rw [hm]
        exact List.mem_cons_self _ _
      · rw [hm]
        exact List.mem_cons_of_mem _ (List.mem_cons_self _ _)
    · exact List.mem_cons_of_mem _ (List.mem_cons_of_mem _ h1)

theorem listMin_mem (l : List ℚ) (h : l ≠ []) : listMin l ∈ l := by
  cases l with
  | nil => exact absurd rfl h
  | cons x xs => exact foldlMin_mem x xs

theorem candidates_mono (edges : List SpatialEdge) (p : PPoint) (r rr : ℚ) (hr : r ≤ rr)
    (e : SpatialEdge) (he : e ∈ candidates edges p r) : e ∈ candidates edges p rr := by
  unfold candidates at he ⊢
  rw [List.mem_filter] at he ⊢
  refine ⟨he.1, ?_⟩
  have h2 := he.2
  simp only [rectsIntersect, decide_eq_true_eq] at h2 ⊢
  obtain ⟨h3, h4, h5, h6⟩ := h2
  exact ⟨by linarith, by linarith, by linarith, by linarith⟩

theorem aux_all_empty (edges : List SpatialEdge) (p : PPoint) (rs : List ℚ)
    (h : ∀ r ∈ rs, candidates edges p r = []) :
    find_nearest_edge_aux edges p rs ([], none) = ([], none) := by
  induction rs with
  | nil => rfl
  | cons r rs ih =>
    simp only [find_nearest_edge_aux]
    rw [h r (List.mem_cons_self r rs)]
    simp only [ne_eq, not_true_eq_false, if_false]
    exact ih (fun x hx => h x (List.mem_cons_of_mem _ hx))

/-- Invariant of the recorded matches: the latest scored candidate list is
non-empty, the recorded minimum is one of its distances, and every row
comes from the 650 m bounding-box query. -/
def InvPm (edges : List SpatialEdge) (p : PPoint)
    (o : Option (List (SpatialEdge × ℚ) × ℚ)) : Prop :=
  ∀ pm sd, o = some (pm, sd) → pm ≠ [] ∧ sd ∈ pm.map Prod.snd ∧
    ∀ q ∈ pm, q.1 ∈ candidates edges p 650

theorem InvPm_build (edges : List SpatialEdge) (p : PPoint) (r : ℚ) (hr : r ≤ 650)
    (hidx : candidates edges p r ≠ []) :
    InvPm edges p (some ((candidates edges p r).map (fun e => (e, lineDistSq p e.geom)),
      listMin (((candidates edges p r).map (fun e => (e, lineDistSq p e.geom))).map
        Prod.snd))) := by
  intro pm sd heq
  injection heq with h
  rw [Prod.mk.injEq] at h
  obtain ⟨h1, h2⟩ := h
  subst h1
  subst h2
  refine ⟨?_, ?_, ?_⟩
  · intro hnil
    exact hidx (List.map_eq_nil_iff.mp hnil)
  · apply listMin_mem
    intro hnil
    exact hidx (List.map_eq_nil_iff.mp (List.map_eq_nil_iff.mp hnil))
  · intro q hq
    rw [List.mem_map] at hq
    obtain ⟨e, he, rfl⟩ := hq
    exact candidates_mono edges p r 650 hr e he

theorem aux_inv (edges : List SpatialEdge) (p : PPoint) (rs : List ℚ)
    (hrs : ∀ r ∈ rs, r ≤ 650) (st : List SpatialEdge × Option (List (SpatialEdge × ℚ) × ℚ))
    (hst : InvPm edges p st.2) :
    InvPm edges p (find_nearest_edge_aux edges p rs st).2 := by
  induction rs generalizing st with
  | nil => exact hst
  | cons r rs ih =>
    simp only [find_nearest_edge_aux]
    by_cases hidx : candidates edges p r ≠ []
    · rw [if_pos hidx]
      have hb := InvPm_build edges p r (hrs r (List.mem_cons_self r rs)) hidx
      by_cases hbreak : listMin (((candidates edges p r).map
          (fun e => (e, lineDistSq p e.geom))).map Prod.snd) < r * r
      · rw [if_pos hbreak]
        exact hb
      · rw [if_neg hbreak]
        exact ih (fun x hx => hrs x (List.mem_cons_of_mem _ hx)) _ hb
    · rw [if_neg hidx]
      exact ih (fun x hx => hrs x (List.mem_cons_of_mem _ hx)) _ hst

theorem aux_last (edges : List SpatialEdge) (p : PPoint) (rs₁ : List ℚ) (rl : ℚ)
    (hlast : candidates edges p rl ≠ [])
    (st : List SpatialEdge × Option (List (SpatialEdge × ℚ) × ℚ)) :
    (find_nearest_edge_aux edges p (rs₁ ++ [rl]) st).1 ≠ [] ∧
    (find_nearest_edge_aux edges p (rs₁ ++ [rl]) st).2.isSome = true := by
  induction rs₁ generalizing st with
  | nil =>
    simp only [List.nil_append, find_nearest_edge_aux]
    rw [if_pos hlast]
    by_cases hbreak : listMin (((candidates edges p rl).map
        (fun e => (e, lineDistSq p e.geom))).map Prod.snd) < rl * rl
    · rw [if_pos hbreak]
      exact ⟨hlast, rfl⟩
    · rw [if_neg hbreak]
      exact ⟨hlast, rfl⟩
  | cons r rs ih =>
    simp only [List.cons_append, find_nearest_edge_aux]
    by_cases hidx : candidates edges p r ≠ []
    · rw [if_pos hidx]
      by_cases hbreak : listMin (((candidates edges p r).map
          (fun e => (e, lineDistSq p e.geom))).map Prod.snd) < r * r
      · rw [if_pos hbreak]
        exact ⟨hidx, rfl⟩
      · rw [if_neg hbreak]
        exact ih _
    · rw [if_neg hidx]
      exact ih _

theorem find_some_of_mem {α : Type} (p : α → Bool) (l : List α) (x : α)
    (hx : x ∈ l) (hp : p x = true) : ∃ q, l.find? p = some q := by
  induction l with
  | nil => exact absurd hx (List.not_mem_nil x)
  | cons a as ih =>
    by_cases ha : p a = true
    · exact ⟨a, by rw [List.find?_cons_of_pos _ ha]⟩
    · rcases List.mem_cons.mp hx with h1 | h1
      · subst h1
        exact absurd hp ha
      · obtain ⟨q, hq⟩ := ih h1
        exact ⟨q, by rw [List.find?_cons_of_neg _ (by simpa using ha), hq]⟩

/-- C6 amended: find_nearest_edge probes the radius sequence
[35, 150, 400, 650], computing true distances per candidate set and
stopping once the minimum is below the current radius; it returns absent
exactly when the 650 m bounding-box query yields no candidate (not: when
no edge lies within 650 m true distance), and any returned id belongs to
an edge from the 650 m bounding-box candidate set. -/
theorem find_nearest_edge_absent_iff (edges : List SpatialEdge) (p : PPoint) :
    (find_nearest_edge edges p = none ↔ candidates edges p 650 = []) ∧
    (∀ n, find_nearest_edge edges p = some n →
      ∃ e, e ∈ candidates edges p 650 ∧ e.eid = n) := by
  have hsub : ∀ r ∈ ([35, 150, 400, 650] : List ℚ), r ≤ 650 := by
    intro r hr
    simp only [List.mem_cons, List.not_mem_nil, or_false] at hr
    rcases hr with rfl | rfl | rfl | rfl <;> norm_num
  have hInvNone : InvPm edges p (none : Option (List (SpatialEdge × ℚ) × ℚ)) := by
    intro pm sd h
    exact absurd h (by simp)
  have hmain : ∀ n, find_nearest_edge edges p = some n →
      ∃ e, e ∈ candidates edges p 650 ∧ e.eid = n := by
    intro n hres
    unfold find_nearest_edge at hres
    by_cases hnil : (find_nearest_edge_aux edges p [35, 150, 400, 650] ([], none)).1 = []
    · rw [if_pos hnil] at hres
      exact absurd hres (by simp)
    · rw [if_neg hnil] at hres
      have hInv := aux_inv edges p [35, 150, 400, 650] hsub ([], none) hInvNone
      cases hst2 : (find_nearest_edge_aux edges p [35, 150, 400, 650] ([], none)).2 with
      | none =>
        rw [hst2] at hres
        exact absurd hres (by simp)
      | some pmsd =>
        rw [hst2] at hres
        dsimp only at hres
        obtain ⟨hne, hmem, hall⟩ := hInv pmsd.1 pmsd.2 (by rw [hst2])
        cases hfind : pmsd.1.find? (fun q => q.2 == pmsd.2) with
        | none =>
          rw [hfind] at hres
          exact absurd hres (by simp)
        | some q =>
          rw [hfind] at hres
          have hqmem : q ∈ pmsd.1 := List.mem_of_find?_eq_some hfind
          exact ⟨q.1, hall q hqmem, Option.some.inj hres⟩
  refine ⟨⟨?_, ?_⟩, hmain⟩
  · intro hres
    by_contra hcand
    have hlast := aux_last edges p [35, 150, 400] 650 hcand ([], none)
    rw [show ([35, 150, 400] : List ℚ) ++ [650] = [35, 150, 400, 650] from rfl] at hlast
    have hInv := aux_inv edges p [35, 150, 400, 650] hsub ([], none) hInvNone
    unfold find_nearest_edge at hres
    rw [if_neg hlast.1] at hres
    cases hst2 : (find_nearest_edge_aux edges p [35, 150, 400, 650] ([], none)).2 with
    | none =>
      rw [hst2] at hlast
      simp at hlast
    | some pmsd =>
      rw [hst2] at hres
      dsimp only at hres
      obtain ⟨hne, hmem, hall⟩ := hInv pmsd.1 pmsd.2 (by rw [hst2])
      rw [List.mem_map] at hmem
      obtain ⟨q0, hq0, hq0s⟩ := hmem
      obtain ⟨q, hq⟩ := find_some_of_mem (fun x => x.2 == pmsd.2) pmsd.1 q0 hq0
        (by simpa using hq0s)
      rw [hq] at hres
      exact absurd hres (by simp)
  · intro hcand
    have hempty : ∀ r ∈ ([35, 150, 400, 650] : List ℚ), candidates edges p r = [] := by
      intro r hr
      rw [List.eq_nil_iff_forall_not_mem]
      intro e he
      have h650 := candidates_mono edges p r 650 (hsub r hr) e he
      rw [hcand] at h650
      exact absurd h650 (List.not_mem_nil e)
    unfold find_nearest_edge
    rw [aux_all_empty edges p [35, 150, 400, 650] hempty]
    rfl

/-! ## Graph serialization (src/utils/igraphs.py)

The serializer stringifies every node and edge attribute (igraphs.py lines
79-91) and the reader parses them back to typed values (lines 10-28).
Python str, int, float, ast.literal_eval and shapely wkt are external
capabilities; modelled from the spec: every attribute is stored as text in
a literal-value encoding that must parse back into the exact original
structure, numbers printing as float strs (an optional sign, an integer
part, a point and at least one fractional digit), tuples as
parenthesized comma-space lists, the noise map in dict syntax and
geometries as Well-Known-Text.  Numbers are modelled as exact decimals. -/

/-- An exact decimal with value m / 10 ^ e.  Python str of a float always
prints at least one fractional digit, so on-disk values satisfy 1 ≤ e. -/
structure Dec where
  m : ℤ
  e : ℕ
deriving DecidableEq

/-- The rational value of a decimal. -/
def Dec.val (d : Dec) : ℚ := (d.m : ℚ) / 10 ^ d.e

/-- Little-endian base-10 digits, empty for 0. -/
def toDigitsLE (n : ℕ) : List ℕ :=
  if h : n = 0 then []
  else (n % 10) :: toDigitsLE (n / 10)
termination_by n
decreasing_by exact Nat.div_lt_self (Nat.pos_of_ne_zero h) (by norm_num)

def ofDigitsLE : List ℕ → ℕ
  | [] => 0
  | d :: ds => d + 10 * ofDigitsLE ds

/-- Big-endian digits of a number, empty for 0. -/
def digitsBE (n : ℕ) : List ℕ := (toDigitsLE n).reverse

def ofDigitsBE (l : List ℕ) : ℕ := l.foldl (fun a d => a * 10 + d) 0

theorem ofDigitsLE_toDigitsLE (n : ℕ) : ofDigitsLE (toDigitsLE n) = n := by
  induction n using Nat.strong_induction_on with
  | _ n ih =>
    rw [toDigitsLE]
    split
    · next h => simp [ofDigitsLE, h]
    · next h =>
      rw [ofDigitsLE, ih (n / 10) (Nat.div_lt_self (Nat.pos_of_ne_zero h) (by norm_num))]
      exact Nat.mod_add_div n 10

theorem ofDigitsBE_snoc (xs : List ℕ) (d : ℕ) :
    ofDigitsBE (xs ++ [d]) = ofDigitsBE xs * 10 + d := by
  unfold ofDigitsBE
  rw [List.foldl_append]
  rfl

theorem ofDigitsBE_reverse (l : List ℕ) : ofDigitsBE l.reverse = ofDigitsLE l := by
  induction l with
  | nil => rfl
  | cons d ds ih =>
    rw [List.reverse_cons, ofDigitsBE_snoc, ih, ofDigitsLE]
    omega

theorem ofDigitsBE_digitsBE (n : ℕ) : ofDigitsBE (digitsBE n) = n := by
  rw [digitsBE, ofDigitsBE_reverse, ofDigitsLE_toDigitsLE]

theorem ofDigitsBE_append (a b : List ℕ) :
    ofDigitsBE (a ++ b) = ofDigitsBE a * 10 ^ b.length + ofDigitsBE b := by
  induction b using List.reverseRecOn with
  | nil => simp [ofDigitsBE]
  | append_singleton bs d ih =>
    rw [← List.append_assoc, ofDigitsBE_snoc, ofDigitsBE_snoc, ih]
    rw [List.length_append, List.length_singleton]
    ring

theorem ofDigitsBE_replicate_zero (k : ℕ) : ofDigitsBE (List.replicate k 0) = 0 := by
  induction k with
  | zero => rfl
  | succ k ih =>
    have : List.replicate (k + 1) 0 = List.replicate k 0 ++ [0] := by
      rw [List.replicate_succ']
    rw [this, ofDigitsBE_snoc, ih]

theorem ofDigitsBE_pad (k : ℕ) (l : List ℕ) :
    ofDigitsBE (List.replicate k 0 ++ l) = ofDigitsBE l := by
  rw [ofDigitsBE_append, ofDigitsBE_replicate_zero]
  ring

theorem toDigitsLE_lt_ten (n : ℕ) : ∀ d ∈ toDigitsLE n, d < 10 := by
  induction n using Nat.strong_induction_on with
  | _ n ih =>
    rw [toDigitsLE]
    split
    · simp
    · next h =>
      intro d hd
      rcases List.mem_cons.mp hd with h1 | h1
      · subst h1
        exact Nat.mod_lt _ (by norm_num)
      · exact ih (n / 10) (Nat.div_lt_self (Nat.pos_of_ne_zero h) (by norm_num)) d h1

theorem digitsBE_lt_ten (n : ℕ) : ∀ d ∈ digitsBE n, d < 10 := by
  intro d hd
  exact toDigitsLE_lt_ten n d (List.mem_reverse.mp hd)

theorem toDigitsLE_eq_nil_iff (n : ℕ) : toDigitsLE n = [] ↔ n = 0 := by
  rw [toDigitsLE]
  split
  · next h => simp [h]
  · next h => simp [h]

/-- The character of one digit. -/
def digitChar (d : ℕ) : Char :=
  match d with
  | 0 => '0' | 1 => '1' | 2 => '2' | 3 => '3' | 4 => '4'
  | 5 => '5' | 6 => '6' | 7 => '7' | 8 => '8' | _ => '9'

/-- The digit value of a character, 10 for non-digits. -/
def charDigitVal (c : Char) : ℕ :=
  match c with
  | '0' => 0 | '1' => 1 | '2' => 2 | '3' => 3 | '4' => 4
  | '5' => 5 | '6' => 6 | '7' => 7 | '8' => 8 | '9' => 9 | _ => 10

def isDigitCh (c : Char) : Bool := decide (charDigitVal c < 10)

theorem charDigitVal_digitChar (d : ℕ) (h : d < 10) : charDigitVal (digitChar d) = d := by
  interval_cases d <;> rfl

theorem isDigitCh_digitChar (d : ℕ) (h : d < 10) : isDigitCh (digitChar d) = true := by
  interval_cases d <;> rfl

/-- Python str of a non-negative integer. -/
def printNat (n : ℕ) : List Char :=
  if n = 0 then ['0'] else (digitsBE n).map digitChar

/-- Whether a character list starts with a digit. -/
def headIsDigit : List Char → Bool
  | [] => false
  | c :: _ => isDigitCh c

/-- Greedily read leading digits, returning their values and the rest. -/
def takeDigits : List Char → List ℕ × List Char
  | [] => ([], [])
  | c :: cs =>
    if isDigitCh c then
      let r := takeDigits cs
      (charDigitVal c :: r.1, r.2)
    else ([], c :: cs)

/-- Parse a decimal natural number (Python int of the digit run). -/
def parseNat (s : List Char) : Option (ℕ × List Char) :=
  let r := takeDigits s
  if r.1 = [] then none else some (ofDigitsBE r.1, r.2)

theorem takeDigits_spec (ds : List ℕ) (hds : ∀ d ∈ ds, d < 10) (rest : List Char)
    (hrest : headIsDigit rest = false) :
    takeDigits (ds.map digitChar ++ rest) = (ds, rest) := by
  induction ds with
  | nil =>
    cases rest with
    | nil => rfl
    | cons c cs =>
      have hc : isDigitCh c = false := hrest
      simp only [List.map_nil, List.nil_append, takeDigits, hc, Bool.false_eq_true, if_false]
  | cons d ds ih =>
    have hd := hds d (by simp)
    simp only [List.map_cons, List.cons_append, takeDigits, isDigitCh_digitChar d hd, if_true,
      List.append_eq]
    rw [ih (fun x hx => hds x (by simp [hx])) ]
    rw [charDigitVal_digitChar d hd]

theorem parseNat_print (n : ℕ) (rest : List Char) (hrest : headIsDigit rest = false) :
    parseNat (printNat n ++ rest) = some (n, rest) := by
  by_cases h : n = 0
  · subst h
    have h0 : printNat 0 = List.map digitChar [0] := rfl
    rw [printNat]
    simp only [if_true]
    show parseNat (List.map digitChar [0] ++ rest) = _
    unfold parseNat
    rw [takeDigits_spec [0] (by simp) rest hrest]
    rfl
  · rw [printNat, if_neg h]
    unfold parseNat
    rw [takeDigits_spec (digitsBE n) (digitsBE_lt_ten n) rest hrest]
    have hne : digitsBE n ≠ [] := by
      rw [digitsBE]
      simp only [ne_eq, List.reverse_eq_nil_iff]
      rw [toDigitsLE_eq_nil_iff]
      exact h
    simp only [hne, if_false, ofDigitsBE_digitsBE]

/-- The digits of n with a decimal point before the last e1 of them,
zero-padded so at least one digit precedes the point. -/
def printDecBody (n e1 : ℕ) : List Char :=
  let ds := digitsBE n
  let pad := List.replicate (e1 + 1 - ds.length) 0 ++ ds
  (pad.take (pad.length - e1)).map digitChar
    ++ '.' :: (pad.drop (pad.length - e1)).map digitChar

/-- Python str of a float with value m / 10 ^ e: optional sign, then the
digits of the scaled mantissa with a decimal point before the last
max e 1 digits (str of a float always prints at least one fractional
digit, so a whole number n prints as n.0). -/
def printDec (d : Dec) : List Char :=
  (if d.m < 0 then ['-'] else [])
    ++ printDecBody (d.m.natAbs * 10 ^ (max d.e 1 - d.e)) (max d.e 1)

/-- Parse the fractional part after the integral digits: a point then digits. -/
def parseFrac (ipart : ℕ) (s2 : List Char) : Option (Dec × List Char) :=
  match s2 with
  | c :: s3 =>
    if c = '.' then
      let r := takeDigits s3
      if r.1 = [] then none
      else some (⟨(ipart * 10 ^ r.1.length + ofDigitsBE r.1 : ℕ), r.1.length⟩, r.2)
    else none
  | [] => none

theorem parseFrac_cons (ipart : ℕ) (c : Char) (s3 : List Char) :
    parseFrac ipart (c :: s3)
      = if c = '.' then
          (if (takeDigits s3).1 = [] then none
           else some (⟨(ipart * 10 ^ (takeDigits s3).1.length
              + ofDigitsBE (takeDigits s3).1 : ℕ), (takeDigits s3).1.length⟩,
             (takeDigits s3).2))
        else none := rfl

/-- Parse an unsigned decimal literal: digits, point, digits. -/
def parseDecNonneg (s : List Char) : Option (Dec × List Char) :=
  match parseNat s with
  | none => none
  | some (ipart, s2) => parseFrac ipart s2

/-- Parse a signed decimal literal (Python float of the string). -/
def parseDec (s : List Char) : Option (Dec × List Char) :=
  match s with
  | [] => none
  | c :: t =>
    if c = '-' then (parseDecNonneg t).map (fun r => (⟨-r.1.m, r.1.e⟩, r.2))
    else parseDecNonneg (c :: t)

theorem parseDec_cons (c : Char) (t : List Char) :
    parseDec (c :: t)
      = if c = '-' then (parseDecNonneg t).map (fun r => (⟨-r.1.m, r.1.e⟩, r.2))
        else parseDecNonneg (c :: t) := rfl

theorem parseDec_of_head_digit (s : List Char) (h : headIsDigit s = true) :
    parseDec s = parseDecNonneg s := by
  cases s with
  | nil => exact absurd h (by decide)
  | cons c t =>
    rw [parseDec_cons, if_neg]
    intro hc
    rw [hc] at h
    have hf : headIsDigit ('-' :: t) = false := rfl
    rw [hf] at h
    exact Bool.noConfusion h

/-- The unsigned part of printDec parses back exactly when the exponent is
at least 1 (Python str of a float always prints a fractional digit, so
every float string this program writes satisfies that). -/
theorem parseDecNonneg_print (n e1 : ℕ) (he1 : 1 ≤ e1) (rest : List Char)
    (hrest : headIsDigit rest = false) :
    parseDecNonneg (printDecBody n e1 ++ rest) = some (⟨(n : ℤ), e1⟩, rest) := by
  set ds := digitsBE n with hds
  set pad := List.replicate (e1 + 1 - ds.length) 0 ++ ds with hpad
  have hpadlt : ∀ d ∈ pad, d < 10 := by
    intro d hd
    rcases List.mem_append.mp hd with h1 | h1
    · have := List.eq_of_mem_replicate h1
      omega
    · exact digitsBE_lt_ten n d h1
  have hpadlen : e1 + 1 ≤ pad.length := by
    rw [hpad, List.length_append, List.length_replicate]
    omega
  set intDs := pad.take (pad.length - e1) with hint
  set fracDs := pad.drop (pad.length - e1) with hfrac
  have hsplit : intDs ++ fracDs = pad := List.take_append_drop _ _
  have hintlen : intDs.length = pad.length - e1 := by
    rw [hint, List.length_take]
    omega
  have hfraclen : fracDs.length = e1 := by
    rw [hfrac, List.length_drop]
    omega
  have hintlt : ∀ d ∈ intDs, d < 10 := fun d hd => hpadlt d (List.mem_of_mem_take hd)
  have hfraclt : ∀ d ∈ fracDs, d < 10 := fun d hd => hpadlt d (List.mem_of_mem_drop hd)
  have hintne : intDs ≠ [] := by
    intro hnil
    have := hintlen
    rw [hnil] at this
    simp only [List.length_nil] at this
    omega
  have hfracne : fracDs ≠ [] := by
    intro hnil
    rw [hnil] at hfraclen
    simp only [List.length_nil] at hfraclen
    omega
  have hdot : headIsDigit ('.' :: fracDs.map digitChar ++ rest) = false := rfl
  have hstep1 : takeDigits (intDs.map digitChar ++ ('.' :: fracDs.map digitChar ++ rest))
      = (intDs, '.' :: fracDs.map digitChar ++ rest) :=
    takeDigits_spec intDs hintlt _ hdot
  have hstep2 : takeDigits (fracDs.map digitChar ++ rest) = (fracDs, rest) :=
    takeDigits_spec fracDs hfraclt rest hrest
  have hval : ofDigitsBE intDs * 10 ^ e1 + ofDigitsBE fracDs = n := by
    have h1 : ofDigitsBE (intDs ++ fracDs) = ofDigitsBE pad := by rw [hsplit]
    rw [ofDigitsBE_append, hfraclen] at h1
    rw [h1, hpad, ofDigitsBE_pad, hds, ofDigitsBE_digitsBE]
  have hpn : parseNat (intDs.map digitChar ++ ('.' :: fracDs.map digitChar ++ rest))
      = some (ofDigitsBE intDs, '.' :: fracDs.map digitChar ++ rest) := by
    rw [parseNat, hstep1]
    show (if intDs = [] then none
      else some (ofDigitsBE intDs, '.' :: fracDs.map digitChar ++ rest)) = _
    rw [if_neg hintne]
  show parseDecNonneg (intDs.map digitChar ++ '.' :: fracDs.map digitChar ++ rest) = _
  rw [parseDecNonneg]
  rw [show intDs.map digitChar ++ '.' :: fracDs.map digitChar ++ rest
      = intDs.map digitChar ++ ('.' :: fracDs.map digitChar ++ rest) from by
    rw [List.append_assoc]]
  rw [hpn]
  dsimp only
  rw [List.cons_append, parseFrac_cons, if_pos rfl, hstep2]
  show (if fracDs = [] then none
    else some ((⟨(ofDigitsBE intDs * 10 ^ fracDs.length + ofDigitsBE fracDs : ℕ),
      fracDs.length⟩ : Dec), rest)) = some (⟨(n : ℤ), e1⟩, rest)
  rw [if_neg hfracne]
  rw [hfraclen, hval]

theorem printDecBody_head_digit (n e1 : ℕ) (he1 : 1 ≤ e1) (rest : List Char) :
    headIsDigit (printDecBody n e1 ++ rest) = true := by
  set ds := digitsBE n with hds
  set pad := List.replicate (e1 + 1 - ds.length) 0 ++ ds with hpad
  have hpadlen : e1 + 1 ≤ pad.length := by
    rw [hpad, List.length_append, List.length_replicate]
    omega
  set intDs := pad.take (pad.length - e1) with hint
  have hintlen : intDs.length = pad.length - e1 := by
    rw [hint, List.length_take]
    omega
  obtain ⟨a, as, has⟩ : ∃ a as, intDs = a :: as := by
    cases hcs : intDs with
    | nil =>
      rw [hcs] at hintlen
      simp only [List.length_nil] at hintlen
      omega
    | cons a as => exact ⟨a, as, rfl⟩
  have halt : a < 10 := by
    have hmem : a ∈ intDs := by rw [has]; simp
    have hmem2 : a ∈ pad := List.mem_of_mem_take hmem
    rcases List.mem_append.mp hmem2 with h1 | h1
    · have := List.eq_of_mem_replicate h1
      omega
    · exact digitsBE_lt_ten _ a h1
  show headIsDigit (intDs.map digitChar ++ '.' :: (pad.drop (pad.length - e1)).map digitChar
      ++ rest) = true
  rw [has, List.map_cons, List.cons_append]
  show isDigitCh (digitChar a) = true
  exact isDigitCh_digitChar a halt

theorem parseDec_print (d : Dec) (hd : 1 ≤ d.e) (rest : List Char)
    (hrest : headIsDigit rest = false) :
    parseDec (printDec d ++ rest) = some (d, rest) := by
  have he1 : max d.e 1 = d.e := max_eq_left hd
  have hbody := parseDecNonneg_print d.m.natAbs d.e hd rest hrest
  have hprint : printDec d
      = (if d.m < 0 then ['-'] else []) ++ printDecBody d.m.natAbs d.e := by
    rw [printDec, he1, Nat.sub_self, pow_zero, mul_one]
  by_cases hm : d.m < 0
  · rw [hprint, if_pos hm, List.singleton_append, List.cons_append]
    rw [parseDec_cons, if_pos rfl, hbody]
    have hmm : -(d.m.natAbs : ℤ) = d.m := by omega
    simp only [Option.map_some']
    rw [hmm]
  · rw [hprint, if_neg hm, List.nil_append]
    rw [parseDec_of_head_digit _ (printDecBody_head_digit d.m.natAbs d.e hd rest), hbody]
    have hmm : ((d.m.natAbs : ℤ)) = d.m := Int.natAbs_of_nonneg (not_lt.mp hm)
    rw [hmm]

/-- Consume one expected character. -/
def expectCh (c : Char) (s : List Char) : Option (List Char) :=
  match s with
  | x :: t => if x = c then some t else none
  | [] => none

theorem expectCh_cons (c x : Char) (t : List Char) :
    expectCh c (x :: t) = if x = c then some t else none := rfl

theorem expectCh_self (c : Char) (t : List Char) : expectCh c (c :: t) = some t := by
  rw [expectCh_cons, if_pos rfl]

theorem printNat_head (n : ℕ) :
    ∃ a as, printNat n = digitChar a :: as ∧ a < 10 := by
  rw [printNat]
  by_cases h : n = 0
  · subst h
    rw [if_pos rfl]
    exact ⟨0, [], rfl, by norm_num⟩
  · rw [if_neg h]
    have hne : digitsBE n ≠ [] := by
      rw [digitsBE]
      simp only [ne_eq, List.reverse_eq_nil_iff]
      rw [toDigitsLE_eq_nil_iff]
      exact h
    cases hd : digitsBE n with
    | nil => exact absurd hd hne
    | cons d ds =>
      refine ⟨d, ds.map digitChar, rfl, ?_⟩
      exact digitsBE_lt_ten n d (by rw [hd]; simp)

theorem digitChar_ne_rbrace (d : ℕ) (h : d < 10) : digitChar d ≠ '\x7d' := by
  interval_cases d <;> decide

theorem digitChar_ne_rparen (d : ℕ) (h : d < 10) : digitChar d ≠ ')' := by
  interval_cases d <;> decide

/-- Modelled from the spec: Python str of a 3-tuple of ints,
"(a, b, c)". -/
def printTriple (t : ℕ × ℕ × ℕ) : List Char :=
  '(' :: (printNat t.1 ++ ',' :: ' ' :: (printNat t.2.1
    ++ ',' :: ' ' :: (printNat t.2.2 ++ [')'])))

/-- Modelled from the spec: ast.literal_eval of a 3-tuple of ints. -/
def parseTriple (s : List Char) : Option ((ℕ × ℕ × ℕ) × List Char) :=
  match expectCh '(' s with
  | none => none
  | some t =>
    match parseNat t with
    | none => none
    | some (a, s1) =>
      match expectCh ',' s1 with
      | none => none
      | some s2 =>
        match expectCh ' ' s2 with
        | none => none
        | some s3 =>
          match parseNat s3 with
          | none => none
          | some (b, s4) =>
            match expectCh ',' s4 with
            | none => none
            | some s5 =>
              match expectCh ' ' s5 with
              | none => none
              | some s6 =>
                match parseNat s6 with
                | none => none
                | some (c, s7) =>
                  match expectCh ')' s7 with
                  | none => none
                  | some s8 => some ((a, b, c), s8)

theorem parseTriple_print (t : ℕ × ℕ × ℕ) (rest : List Char) :
    parseTriple (printTriple t ++ rest) = some (t, rest) := by
  obtain ⟨a, b, c⟩ := t
  have hstr : printTriple (a, b, c) ++ rest
      = '(' :: (printNat a ++ ',' :: ' ' :: (printNat b
        ++ ',' :: ' ' :: (printNat c ++ ')' :: rest))) := by
    simp only [printTriple, List.cons_append, List.append_assoc, List.singleton_append,
      List.nil_append]
  rw [hstr, parseTriple, expectCh_self]
  dsimp only
  rw [parseNat_print a (',' :: ' ' :: (printNat b
    ++ ',' :: ' ' :: (printNat c ++ ')' :: rest))) rfl]
  dsimp only
  rw [expectCh_self]
  dsimp only
  rw [expectCh_self]
  dsimp only
  rw [parseNat_print b (',' :: ' ' :: (printNat c ++ ')' :: rest)) rfl]
  dsimp only
  rw [expectCh_self]
  dsimp only
  rw [expectCh_self]
  dsimp only
  rw [parseNat_print c (')' :: rest) rfl]
  dsimp only
  rw [expectCh_self]

/-- Modelled from the spec: one "key: value" item of Python str of a
noise dict. -/
def printNoiseEntry (kv : ℕ × Dec) : List Char :=
  printNat kv.1 ++ ':' :: ' ' :: printDec kv.2

def parseNoiseEntry (s : List Char) : Option ((ℕ × Dec) × List Char) :=
  match parseNat s with
  | none => none
  | some (k, s1) =>
    match expectCh ':' s1 with
    | none => none
    | some s2 =>
      match expectCh ' ' s2 with
      | none => none
      | some s3 =>
        match parseDec s3 with
        | none => none
        | some r => some ((k, r.1), r.2)

theorem parseNoiseEntry_print (kv : ℕ × Dec) (he : 1 ≤ kv.2.e) (rest : List Char)
    (hrest : headIsDigit rest = false) :
    parseNoiseEntry (printNoiseEntry kv ++ rest) = some (kv, rest) := by
  obtain ⟨k, v⟩ := kv
  have hstr : printNoiseEntry (k, v) ++ rest
      = printNat k ++ ':' :: ' ' :: (printDec v ++ rest) := by
    simp only [printNoiseEntry, List.cons_append, List.append_assoc]
  rw [hstr, parseNoiseEntry, parseNat_print k (':' :: ' ' :: (printDec v ++ rest)) rfl]
  dsimp only
  rw [expectCh_self]
  dsimp only
  rw [expectCh_self]
  dsimp only
  rw [parseDec_print v he rest hrest]

/-- Modelled from the spec: the items of Python str of a dict after the
first one, each preceded by ", ". -/
def printNoisesTail : List (ℕ × Dec) → List Char
  | [] => []
  | kv :: t => ',' :: ' ' :: (printNoiseEntry kv ++ printNoisesTail t)

/-- Modelled from the spec: Python str of a dict with int keys and float
values. -/
def printNoises : List (ℕ × Dec) → List Char
  | [] => ['\x7b', '\x7d']
  | kv :: t => '\x7b' :: (printNoiseEntry kv ++ (printNoisesTail t ++ ['\x7d']))

def parseNoisesTail : ℕ → List Char → Option (List (ℕ × Dec) × List Char)
  | 0, _ => none
  | _ + 1, [] => none
  | fuel + 1, c :: t =>
    if c = '\x7d' then some ([], t)
    else if c = ',' then
      match expectCh ' ' t with
      | none => none
      | some t2 =>
        match parseNoiseEntry t2 with
        | none => none
        | some (kv, s2) =>
          match parseNoisesTail fuel s2 with
          | none => none
          | some r => some (kv :: r.1, r.2)
    else none

theorem parseNoisesTail_cons (fuel : ℕ) (c : Char) (t : List Char) :
    parseNoisesTail (fuel + 1) (c :: t)
      = if c = '\x7d' then some ([], t)
        else if c = ',' then
          match expectCh ' ' t with
          | none => none
          | some t2 =>
            match parseNoiseEntry t2 with
            | none => none
            | some (kv, s2) =>
              match parseNoisesTail fuel s2 with
              | none => none
              | some r => some (kv :: r.1, r.2)
        else none := rfl

theorem headIsDigit_noisesTail (t : List (ℕ × Dec)) (rest : List Char) :
    headIsDigit (printNoisesTail t ++ '\x7d' :: rest) = false := by
  cases t <;> rfl

theorem parseNoisesTail_print (t : List (ℕ × Dec)) :
    ∀ fuel, t.length < fuel → (∀ kv ∈ t, 1 ≤ kv.2.e) → ∀ rest,
      parseNoisesTail fuel (printNoisesTail t ++ '\x7d' :: rest) = some (t, rest) := by
  induction t with
  | nil =>
    intro fuel hfuel hall rest
    cases fuel with
    | zero => omega
    | succ f =>
      show parseNoisesTail (f + 1) ('\x7d' :: rest) = _
      rw [parseNoisesTail_cons, if_pos rfl]
  | cons kv t ih =>
    intro fuel hfuel hall rest
    cases fuel with
    | zero => simp at hfuel
    | succ f =>
      have hstr : printNoisesTail (kv :: t) ++ '\x7d' :: rest
          = ',' :: ' ' :: (printNoiseEntry kv
            ++ (printNoisesTail t ++ '\x7d' :: rest)) := by
        simp only [printNoisesTail, List.cons_append, List.append_assoc]
      rw [hstr, parseNoisesTail_cons, if_neg (by decide), if_pos rfl, expectCh_self]
      dsimp only
      rw [parseNoiseEntry_print kv (hall kv (by simp)) _ (headIsDigit_noisesTail t rest)]
      dsimp only
      rw [ih f (by simp at hfuel; omega) (fun x hx => hall x (by simp [hx])) rest]

/-- The part of a noise-dict string after the opening brace. -/
def parseNoisesBody (fuel : ℕ) (t : List Char) :
    Option (List (ℕ × Dec) × List Char) :=
  match t with
  | [] => none
  | c2 :: t2 =>
    if c2 = '\x7d' then some ([], t2)
    else
      match parseNoiseEntry (c2 :: t2) with
      | none => none
      | some (kv, s2) =>
        match parseNoisesTail fuel s2 with
        | none => none
        | some r => some (kv :: r.1, r.2)

theorem parseNoisesBody_cons (fuel : ℕ) (c2 : Char) (t2 : List Char) :
    parseNoisesBody fuel (c2 :: t2)
      = if c2 = '\x7d' then some ([], t2)
        else
          match parseNoiseEntry (c2 :: t2) with
          | none => none
          | some (kv, s2) =>
            match parseNoisesTail fuel s2 with
            | none => none
            | some r => some (kv :: r.1, r.2) := rfl

/-- Modelled from the spec: ast.literal_eval of a noise dict string. -/
def parseNoises (fuel : ℕ) (s : List Char) :
    Option (List (ℕ × Dec) × List Char) :=
  match expectCh '\x7b' s with
  | none => none
  | some t => parseNoisesBody fuel t

theorem parseNoises_print (l : List (ℕ × Dec)) (hl : ∀ kv ∈ l, 1 ≤ kv.2.e)
    (fuel : ℕ) (hfuel : l.length ≤ fuel) (rest : List Char) :
    parseNoises fuel (printNoises l ++ rest) = some (l, rest) := by
  cases l with
  | nil =>
    show parseNoises fuel ('\x7b' :: '\x7d' :: rest) = _
    rw [parseNoises, expectCh_self]
    dsimp only
    rw [parseNoisesBody_cons, if_pos rfl]
  | cons kv t =>
    obtain ⟨a, as, hc, ha⟩ := printNat_head kv.1
    have hstr : printNoises (kv :: t) ++ rest
        = '\x7b' :: (digitChar a :: (as ++ (':' :: ' ' :: printDec kv.2
          ++ (printNoisesTail t ++ '\x7d' :: rest)))) := by
      simp only [printNoises, printNoiseEntry, hc, List.cons_append, List.append_assoc,
        List.singleton_append, List.nil_append]
    rw [hstr, parseNoises, expectCh_self]
    dsimp only
    rw [parseNoisesBody_cons, if_neg (digitChar_ne_rbrace a ha)]
    have hent : digitChar a :: (as ++ (':' :: ' ' :: printDec kv.2
          ++ (printNoisesTail t ++ '\x7d' :: rest)))
        = printNoiseEntry kv ++ (printNoisesTail t ++ '\x7d' :: rest) := by
      simp only [printNoiseEntry, hc, List.cons_append, List.append_assoc]
    rw [hent,
      parseNoiseEntry_print kv (hl kv (by simp)) _ (headIsDigit_noisesTail t rest)]
    dsimp only
    rw [parseNoisesTail_print t fuel (by simp at hfuel ⊢; omega)
      (fun x hx => hl x (by simp [hx])) rest]

/-- Modelled from the spec: one "x y" coordinate pair of a WKT
LINESTRING. -/
def printGeomPt (p : Dec × Dec) : List Char :=
  printDec p.1 ++ ' ' :: printDec p.2

def parseGeomPt (s : List Char) : Option ((Dec × Dec) × List Char) :=
  match parseDec s with
  | none => none
  | some (x, s1) =>
    match expectCh ' ' s1 with
    | none => none
    | some s2 =>
      match parseDec s2 with
      | none => none
      | some r => some ((x, r.1), r.2)

theorem parseGeomPt_print (p : Dec × Dec) (hx : 1 ≤ p.1.e) (hy : 1 ≤ p.2.e)
    (rest : List Char) (hrest : headIsDigit rest = false) :
    parseGeomPt (printGeomPt p ++ rest) = some (p, rest) := by
  obtain ⟨x, y⟩ := p
  have hstr : printGeomPt (x, y) ++ rest = printDec x ++ (' ' :: (printDec y ++ rest)) := by
    simp only [printGeomPt, List.cons_append, List.append_assoc]
  rw [hstr, parseGeomPt, parseDec_print x hx (' ' :: (printDec y ++ rest)) rfl]
  dsimp only
  rw [expectCh_self]
  dsimp only
  rw [parseDec_print y hy rest hrest]

def printGeomTail : List (Dec × Dec) → List Char
  | [] => []
  | p :: t => ',' :: ' ' :: (printGeomPt p ++ printGeomTail t)

/-- The WKT prefix "LINESTRING (". -/
def wktHeader : List Char :=
  ['L', 'I', 'N', 'E', 'S', 'T', 'R', 'I', 'N', 'G', ' ', '(']

/-- Modelled from the spec: Python str of a shapely LineString, WKT
syntax. -/
def printGeom : List (Dec × Dec) → List Char
  | [] => ['L', 'I', 'N', 'E', 'S', 'T', 'R', 'I', 'N', 'G', ' ', 'E', 'M', 'P', 'T', 'Y']
  | p :: t => wktHeader ++ (printGeomPt p ++ (printGeomTail t ++ [')']))

def parseGeomTail : ℕ → List Char → Option (List (Dec × Dec) × List Char)
  | 0, _ => none
  | _ + 1, [] => none
  | fuel + 1, c :: t =>
    if c = ')' then some ([], t)
    else if c = ',' then
      match expectCh ' ' t with
      | none => none
      | some t2 =>
        match parseGeomPt t2 with
        | none => none
        | some (p, s2) =>
          match parseGeomTail fuel s2 with
          | none => none
          | some r => some (p :: r.1, r.2)
    else none

theorem parseGeomTail_cons (fuel : ℕ) (c : Char) (t : List Char) :
    parseGeomTail (fuel + 1) (c :: t)
      = if c = ')' then some ([], t)
        else if c = ',' then
          match expectCh ' ' t with
          | none => none
          | some t2 =>
            match parseGeomPt t2 with
            | none => none
            | some (p, s2) =>
              match parseGeomTail fuel s2 with
              | none => none
              | some r => some (p :: r.1, r.2)
        else none := rfl

theorem headIsDigit_geomTail (t : List (Dec × Dec)) (rest : List Char) :
    headIsDigit (printGeomTail t ++ ')' :: rest) = false := by
  cases t <;> rfl

theorem parseGeomTail_print (t : List (Dec × Dec)) :
    ∀ fuel, t.length < fuel →
      (∀ p ∈ t, 1 ≤ (p : Dec × Dec).1.e ∧ 1 ≤ p.2.e) → ∀ rest,
      parseGeomTail fuel (printGeomTail t ++ ')' :: rest) = some (t, rest) := by
  induction t with
  | nil =>
    intro fuel hfuel hall rest
    cases fuel with
    | zero => omega
    | succ f =>
      show parseGeomTail (f + 1) (')' :: rest) = _
      rw [parseGeomTail_cons, if_pos rfl]
  | cons p t ih =>
    intro fuel hfuel hall rest
    cases fuel with
    | zero => simp at hfuel
    | succ f =>
      have hstr : printGeomTail (p :: t) ++ ')' :: rest
          = ',' :: ' ' :: (printGeomPt p ++ (printGeomTail t ++ ')' :: rest)) := by
        simp only [printGeomTail, List.cons_append, List.append_assoc]
      rw [hstr, parseGeomTail_cons, if_neg (by decide), if_pos rfl, expectCh_self]
      dsimp only
      rw [parseGeomPt_print p (hall p (by simp)).1 (hall p (by simp)).2 _
        (headIsDigit_geomTail t rest)]
      dsimp only
      rw [ih f (by simp at hfuel; omega) (fun x hx => hall x (by simp [hx])) rest]

/-- Consume an expected literal prefix. -/
def stripPrefixCh : List Char → List Char → Option (List Char)
  | [], s => some s
  | c :: p, s =>
    match expectCh c s with
    | none => none
    | some t => stripPrefixCh p t

theorem stripPrefixCh_nil (s : List Char) : stripPrefixCh [] s = some s := rfl

theorem stripPrefixCh_cons (c : Char) (p s : List Char) :
    stripPrefixCh (c :: p) s
      = match expectCh c s with
        | none => none
        | some t => stripPrefixCh p t := rfl

theorem stripPrefixCh_append (p s : List Char) : stripPrefixCh p (p ++ s) = some s := by
  induction p with
  | nil => rfl
  | cons c p ih =>
    rw [List.cons_append, stripPrefixCh_cons, expectCh_self]
    dsimp only
    exact ih

/-- Modelled from the spec: shapely wkt.loads of a LINESTRING string. -/
def parseGeom (fuel : ℕ) (s : List Char) :
    Option (List (Dec × Dec) × List Char) :=
  match stripPrefixCh wktHeader s with
  | none => none
  | some s1 =>
    match parseGeomPt s1 with
    | none => none
    | some (p, s2) =>
      match parseGeomTail fuel s2 with
      | none => none
      | some r => some (p :: r.1, r.2)

theorem parseGeom_print (p : Dec × Dec) (t : List (Dec × Dec))
    (hall : ∀ q ∈ p :: t, 1 ≤ (q : Dec × Dec).1.e ∧ 1 ≤ q.2.e)
    (fuel : ℕ) (hfuel : t.length < fuel) (rest : List Char) :
    parseGeom fuel (printGeom (p :: t) ++ rest) = some (p :: t, rest) := by
  have hstr : printGeom (p :: t) ++ rest
      = wktHeader ++ (printGeomPt p ++ (printGeomTail t ++ ')' :: rest)) := by
    simp only [printGeom, List.cons_append, List.append_assoc, List.singleton_append,
      List.nil_append]
  rw [hstr, parseGeom, stripPrefixCh_append]
  dsimp only
  rw [parseGeomPt_print p (hall p (by simp)).1 (hall p (by simp)).2 _
    (headIsDigit_geomTail t rest)]
  dsimp only
  rw [parseGeomTail_print t fuel hfuel (fun x hx => hall x (by simp [hx])) rest]

/-- Modelled from the spec: a vertex with the typed attributes the program
keeps at runtime (vertex_id int, x_coord and y_coord floats). -/
structure GNode where
  vertex_id : ℕ
  x_coord : Dec
  y_coord : Dec
deriving DecidableEq

/-- Modelled from the spec: an edge with the typed attributes the program
keeps at runtime (edge_id int, uvkey int 3-tuple, length float, noises
dict from int band to float length, geometry LineString). -/
structure GEdge where
  edge_id : ℕ
  uvkey : ℕ × ℕ × ℕ
  length : Dec
  noises : List (ℕ × Dec)
  geometry : List (Dec × Dec)
deriving DecidableEq

/-- A typed graph: vertex list and edge list. -/
structure TGraph where
  nodes : List GNode
  edges : List GEdge
deriving DecidableEq

/-- A vertex as stored in graphml: every attribute a string. -/
structure SNode where
  vertex_id : List Char
  x_coord : List Char
  y_coord : List Char
deriving DecidableEq

/-- An edge as stored in graphml: every attribute a string. -/
structure SEdge where
  edge_id : List Char
  uvkey : List Char
  length : List Char
  noises : List Char
  geometry : List Char
deriving DecidableEq

/-- A graph as stored in graphml. -/
structure SGraph where
  nodes : List SNode
  edges : List SEdge
deriving DecidableEq

/-- save_ig_to_graphml stringifies vertex_id, x_coord and y_coord of every
vertex and edge_id, uvkey, length, noises and geometry of every edge with
Python str, then saves the stringified copy. -/
def save_ig_to_graphml (g : TGraph) : SGraph :=
  ⟨g.nodes.map (fun n => ⟨printNat n.vertex_id, printDec n.x_coord, printDec n.y_coord⟩),
   g.edges.map (fun e => ⟨printNat e.edge_id, printTriple e.uvkey, printDec e.length,
     printNoises e.noises, printGeom e.geometry⟩)⟩

/-- Python int(s): the whole string must be digits. -/
def parseNatAll (s : List Char) : Option ℕ :=
  match parseNat s with
  | none => none
  | some r => if r.2 = [] then some r.1 else none

/-- Python float(s) on the whole string. -/
def parseDecAll (s : List Char) : Option Dec :=
  match parseDec s with
  | none => none
  | some r => if r.2 = [] then some r.1 else none

/-- ast.literal_eval of an int 3-tuple on the whole string. -/
def parseTripleAll (s : List Char) : Option (ℕ × ℕ × ℕ) :=
  match parseTriple s with
  | none => none
  | some r => if r.2 = [] then some r.1 else none

/-- ast.literal_eval of a noise dict on the whole string. -/
def parseNoisesAll (s : List Char) : Option (List (ℕ × Dec)) :=
  match parseNoises (s.length + 1) s with
  | none => none
  | some r => if r.2 = [] then some r.1 else none

/-- wkt.loads of a LINESTRING on the whole string. -/
def parseGeomAll (s : List Char) : Option (List (Dec × Dec)) :=
  match parseGeom (s.length + 1) s with
  | none => none
  | some r => if r.2 = [] then some r.1 else none

/-- convert_node_attr_types parses vertex_id with int and the coordinates
with float. -/
def convert_node_attr_types (n : SNode) : Option GNode :=
  match parseNatAll n.vertex_id with
  | none => none
  | some vid =>
    match parseDecAll n.x_coord with
    | none => none
    | some x =>
      match parseDecAll n.y_coord with
      | none => none
      | some y => some ⟨vid, x, y⟩

/-- convert_edge_attr_types parses edge_id with int, uvkey and noises with
ast.literal_eval, length with float and geometry with wkt.loads. -/
def convert_edge_attr_types (e : SEdge) : Option GEdge :=
  match parseNatAll e.edge_id with
  | none => none
  | some eid =>
    match parseTripleAll e.uvkey with
    | none => none
    | some uk =>
      match parseDecAll e.length with
      | none => none
      | some ln =>
        match parseNoisesAll e.noises with
        | none => none
        | some ns =>
          match parseGeomAll e.geometry with
          | none => none
          | some gm => some ⟨eid, uk, ln, ns, gm⟩

/-- A loop that converts every element, failing on the first failure, as
set_graph_attributes's for-loops do (a parse error raises). -/
def mapOpt {α β : Type} (f : α → Option β) : List α → Option (List β)
  | [] => some []
  | a :: l =>
    match f a with
    | none => none
    | some b =>
      match mapOpt f l with
      | none => none
      | some bs => some (b :: bs)

theorem mapOpt_cons {α β : Type} (f : α → Option β) (a : α) (l : List α) :
    mapOpt f (a :: l)
      = match f a with
        | none => none
        | some b =>
          match mapOpt f l with
          | none => none
          | some bs => some (b :: bs) := rfl

/-- set_graph_attributes converts the attribute types of every edge, then
of every node. -/
def set_graph_attributes (g : SGraph) : Option TGraph :=
  match mapOpt convert_edge_attr_types g.edges with
  | none => none
  | some es =>
    match mapOpt convert_node_attr_types g.nodes with
    | none => none
    | some ns => some ⟨ns, es⟩

/-- read_ig_graphml reads the stored graph and converts all attribute
types. -/
def read_ig_graphml (g : SGraph) : Option TGraph := set_graph_attributes g

/-- The runtime attribute schema: every float attribute prints with at
least one fractional digit (Python str of a float always does) and every
geometry is a LineString of at least two points. -/
abbrev schemaOk (g : TGraph) : Prop :=
  (∀ n ∈ g.nodes, 1 ≤ n.x_coord.e ∧ 1 ≤ n.y_coord.e) ∧
  (∀ e ∈ g.edges, 1 ≤ e.length.e ∧ (∀ kv ∈ e.noises, 1 ≤ (kv : ℕ × Dec).2.e) ∧
    2 ≤ e.geometry.length ∧ (∀ pt ∈ e.geometry, 1 ≤ (pt : Dec × Dec).1.e ∧ 1 ≤ pt.2.e))

theorem parseNatAll_print (n : ℕ) : parseNatAll (printNat n) = some n := by
  have h := parseNat_print n [] rfl
  rw [List.append_nil] at h
  rw [parseNatAll, h]
  dsimp only
  rw [if_pos rfl]

theorem parseDecAll_print (d : Dec) (hd : 1 ≤ d.e) : parseDecAll (printDec d) = some d := by
  have h := parseDec_print d hd [] rfl
  rw [List.append_nil] at h
  rw [parseDecAll, h]
  dsimp only
  rw [if_pos rfl]

theorem parseTripleAll_print (t : ℕ × ℕ × ℕ) : parseTripleAll (printTriple t) = some t := by
  have h := parseTriple_print t []
  rw [List.append_nil] at h
  rw [parseTripleAll, h]
  dsimp only
  rw [if_pos rfl]

theorem printNoisesTail_len (t : List (ℕ × Dec)) :
    t.length ≤ (printNoisesTail t).length := by
  induction t with
  | nil => simp [printNoisesTail]
  | cons kv t ih =>
    rw [printNoisesTail]
    simp only [List.length_cons, List.length_append]
    omega

theorem printNoises_len (l : List (ℕ × Dec)) : l.length ≤ (printNoises l).length := by
  cases l with
  | nil => simp [printNoises]
  | cons kv t =>
    have := printNoisesTail_len t
    rw [printNoises]
    simp only [List.length_cons, List.length_append, List.length_singleton]
    omega

theorem parseNoisesAll_print (l : List (ℕ × Dec)) (hl : ∀ kv ∈ l, 1 ≤ kv.2.e) :
    parseNoisesAll (printNoises l) = some l := by
  have h := parseNoises_print l hl ((printNoises l).length + 1)
    (by have := printNoises_len l; omega) []
  rw [List.append_nil] at h
  rw [parseNoisesAll, h]
  dsimp only
  rw [if_pos rfl]

theorem printGeomTail_len (t : List (Dec × Dec)) :
    t.length ≤ (printGeomTail t).length := by
  induction t with
  | nil => simp [printGeomTail]
  | cons p t ih =>
    rw [printGeomTail]
    simp only [List.length_cons, List.length_append]
    omega

theorem printGeom_len (p : Dec × Dec) (t : List (Dec × Dec)) :
    t.length < (printGeom (p :: t)).length := by
  have := printGeomTail_len t
  rw [printGeom]
  simp only [List.length_append, List.length_cons, List.length_singleton]
  omega

theorem parseGeomAll_print (p : Dec × Dec) (t : List (Dec × Dec))
    (hall : ∀ q ∈ p :: t, 1 ≤ (q : Dec × Dec).1.e ∧ 1 ≤ q.2.e) :
    parseGeomAll (printGeom (p :: t)) = some (p :: t) := by
  have h := parseGeom_print p t hall ((printGeom (p :: t)).length + 1)
    (by have := printGeom_len p t; omega) []
  rw [List.append_nil] at h
  rw [parseGeomAll, h]
  dsimp only
  rw [if_pos rfl]

theorem convert_node_roundtrip (n : GNode) (hx : 1 ≤ n.x_coord.e) (hy : 1 ≤ n.y_coord.e) :
    convert_node_attr_types
      ⟨printNat n.vertex_id, printDec n.x_coord, printDec n.y_coord⟩ = some n := by
  rw [convert_node_attr_types]
  dsimp only
  rw [parseNatAll_print]
  dsimp only
  rw [parseDecAll_print _ hx]
  dsimp only
  rw [parseDecAll_print _ hy]

theorem convert_edge_roundtrip (e : GEdge) (hlen : 1 ≤ e.length.e)
    (hns : ∀ kv ∈ e.noises, 1 ≤ (kv : ℕ × Dec).2.e)
    (hg2 : 2 ≤ e.geometry.length)
    (hpts : ∀ pt ∈ e.geometry, 1 ≤ (pt : Dec × Dec).1.e ∧ 1 ≤ pt.2.e) :
    convert_edge_attr_types ⟨printNat e.edge_id, printTriple e.uvkey, printDec e.length,
      printNoises e.noises, printGeom e.geometry⟩ = some e := by
  obtain ⟨p, t, hgd⟩ : ∃ p t, e.geometry = p :: t := by
    cases hgs : e.geometry with
    | nil => rw [hgs] at hg2; simp at hg2
    | cons p t => exact ⟨p, t, rfl⟩
  rw [convert_edge_attr_types]
  dsimp only
  rw [parseNatAll_print]
  dsimp only
  rw [parseTripleAll_print]
  dsimp only
  rw [parseDecAll_print _ hlen]
  dsimp only
  rw [parseNoisesAll_print _ hns]
  dsimp only
  rw [hgd, parseGeomAll_print p t (by rw [← hgd]; exact hpts)]
  dsimp only
  rw [← hgd]

theorem mapOpt_map_id {α β : Type} (f : β → Option α) (s : α → β) (l : List α)
    (h : ∀ x ∈ l, f (s x) = some x) : mapOpt f (l.map s) = some l := by
  induction l with
  | nil => rfl
  | cons a l ih =>
    rw [List.map_cons, mapOpt_cons, h a (by simp)]
    dsimp only
    rw [ih (fun x hx => h x (by simp [hx]))]

/-- C5: serialization round-trip.  For every graph whose attributes conform
to the runtime schema (ids are ints, uvkeys int 3-tuples, lengths and
coordinates floats printed with at least one fractional digit, noises
int-to-float dicts, geometries LineStrings of at least two points),
stringifying every attribute with save_ig_to_graphml and parsing the
strings back with read_ig_graphml reproduces the graph exactly: the same
node and edge lists, hence identical counts and, for every edge, an
identical id, uvkey, length, geometry and noise map. -/
theorem serialization_round_trip (g : TGraph) (hg : schemaOk g) :
    read_ig_graphml (save_ig_to_graphml g) = some g := by
  obtain ⟨hn, he⟩ := hg
  have hE : mapOpt convert_edge_attr_types
      (g.edges.map (fun e => (⟨printNat e.edge_id, printTriple e.uvkey, printDec e.length,
        printNoises e.noises, printGeom e.geometry⟩ : SEdge))) = some g.edges := by
    refine mapOpt_map_id _ _ _ (fun e hmem => ?_)
    obtain ⟨h1, h2, h3, h4⟩ := he e hmem
    exact convert_edge_roundtrip e h1 h2 h3 h4
  have hN : mapOpt convert_node_attr_types
      (g.nodes.map (fun n => (⟨printNat n.vertex_id, printDec n.x_coord,
        printDec n.y_coord⟩ : SNode))) = some g.nodes := by
    refine mapOpt_map_id _ _ _ (fun n hmem => ?_)
    obtain ⟨h1, h2⟩ := hn n hmem
    exact convert_node_roundtrip n h1 h2
  rw [read_ig_graphml, set_graph_attributes]
  dsimp only [save_ig_to_graphml]
  rw [hE]
  dsimp only
  rw [hN]

/-- A concrete two-node, one-edge graph for evaluating the round trip. -/
def wG : TGraph :=
  ⟨[⟨0, ⟨255, 1⟩, ⟨-12, 1⟩⟩, ⟨1, ⟨30, 1⟩, ⟨45, 2⟩⟩],
   [⟨0, (0, 1, 0), ⟨555, 1⟩, [(45, ⟨105, 1⟩), (50, ⟨20, 1⟩)],
     [(⟨10, 1⟩, ⟨20, 1⟩), (⟨-30, 1⟩, ⟨40, 1⟩)]⟩]⟩

/-- C5 witness: the concrete graph satisfies the schema and round-trips. -/
theorem serialization_round_trip_witness :
    schemaOk wG ∧ read_ig_graphml (save_ig_to_graphml wG) = some wG :=
  ⟨by decide, serialization_round_trip wG (by decide)⟩

end GreenPaths
